import Mathlib

/-!
Verification of the ancestry-closure and transitive-reduction engine of
`git-branch-graph` (`src/repository.rs`), shallowly embedded in Lean 4.

Commit identifiers are strings ordered byte-wise; the adjacency maps
(`nodes_to_children`, `nodes_to_parents`) are finite maps from a commit to a
set of commits, with an explicit key list standing in for the hash map's key
set and iteration order.  The external `git merge-base` call is a parameter
`oracle : Commit → Commit → Option Commit` (`none` models command failure).
The recursion of the closure worklist and of `prune_children` /
`prune_parents` is driven by an explicit fuel parameter; fuel exhaustion is
a distinguished outcome that never coincides with a result of the source
program.
-/

/-- A commit identifier: an opaque string (embeds `struct Commit(String)`). -/
abbrev Commit := String

/-- Byte-wise lexicographic comparison of character lists.  UTF-8 byte order
coincides with code-point order, so comparing `Char.val` mirrors Rust's
derived `Ord` on `String`. -/
def chLt : List Char → List Char → Bool
  | [], [] => false
  | [], _ :: _ => true
  | _ :: _, [] => false
  | a :: as, b :: bs =>
    if a.toNat < b.toNat then true
    else if b.toNat < a.toNat then false
    else chLt as bs

/-- The strict order on commits used to canonicalize merge-base pairs
(Rust's `rhs > lhs` on `Commit`). -/
def commitLt (a b : Commit) : Bool := chLt a.data b.data

/-- Set insertion for commit sets (`HashSet::insert`): append if absent. -/
def sinsert (s : List Commit) (c : Commit) : List Commit :=
  if c ∈ s then s else s ++ [c]

/-- A `HashMap<Commit, HashSet<Commit>>`: an explicit key list (iteration
order) plus a lookup function returning the stored set (`[]` off the keys). -/
structure GMap where
  keys : List Commit
  find : Commit → List Commit

/-- `HashMap::contains_key`. -/
def GMap.contains (m : GMap) (k : Commit) : Bool := decide (k ∈ m.keys)

/-- `HashMap::insert`: sets the value of `k`, adding `k` to the key order if
it is new. -/
def GMap.insert (m : GMap) (k : Commit) (v : List Commit) : GMap :=
  ⟨if k ∈ m.keys then m.keys else m.keys ++ [k],
   fun x => if x = k then v else m.find x⟩

/-- `map.get_mut(&k).insert(x)` guarded by key presence (the source's
`if let Some(set) = map.get_mut(&k)`): no-op when `k` is absent. -/
def GMap.addEdge (m : GMap) (k x : Commit) : GMap :=
  if k ∈ m.keys then m.insert k (sinsert (m.find k) x) else m

/-- The empty map. -/
def GMap.empty : GMap := ⟨[], fun _ => []⟩

/-- Observation of a map: its entries in iteration order.  Two maps with
different observations are different. -/
def GMap.obs (m : GMap) : List (Commit × List Commit) :=
  m.keys.map (fun k => (k, m.find k))

theorem GMap.find_insert (m : GMap) (k : Commit) (v : List Commit) (x : Commit) :
    (m.insert k v).find x = if x = k then v else m.find x := rfl

theorem GMap.keys_insert (m : GMap) (k : Commit) (v : List Commit) :
    (m.insert k v).keys = if k ∈ m.keys then m.keys else m.keys ++ [k] := rfl

theorem GMap.ext' (m m' : GMap) (hk : m.keys = m'.keys)
    (hf : ∀ x, m.find x = m'.find x) : m = m' := by
  cases m; cases m'
  simp only [GMap.mk.injEq]
  exact ⟨hk, funext hf⟩

/-- Inserting a key's current value back is the identity (for present keys). -/
theorem GMap.insert_self (m : GMap) (k : Commit) (h : k ∈ m.keys) :
    m.insert k (m.find k) = m := by
  apply GMap.ext'
  · simp [GMap.insert, h]
  · intro x
    simp only [GMap.insert]
    by_cases hx : x = k
    · subst hx; simp
    · simp [hx]

theorem mem_sinsert (s : List Commit) (c x : Commit) :
    x ∈ sinsert s c ↔ x ∈ s ∨ x = c := by
  unfold sinsert
  by_cases h : c ∈ s
  · simp only [if_pos h]
    constructor
    · exact Or.inl
    · rintro (hx | rfl) <;> assumption
  · simp [if_neg h]

theorem subset_sinsert (s : List Commit) (c : Commit) : s ⊆ sinsert s c := by
  intro x hx; exact (mem_sinsert s c x).2 (Or.inl hx)

theorem mem_keys_insert (m : GMap) (k : Commit) (v : List Commit) (x : Commit) :
    x ∈ (m.insert k v).keys ↔ x ∈ m.keys ∨ x = k := by
  simp only [GMap.insert]
  by_cases h : k ∈ m.keys
  · simp only [if_pos h]
    constructor
    · exact Or.inl
    · rintro (hx | rfl) <;> assumption
  · simp [if_neg h]

theorem keys_subset_insert (m : GMap) (k : Commit) (v : List Commit) :
    m.keys ⊆ (m.insert k v).keys := by
  intro x hx; exact (mem_keys_insert m k v x).2 (Or.inl hx)

theorem keys_addEdge (m : GMap) (k x : Commit) :
    (m.addEdge k x).keys = m.keys := by
  unfold GMap.addEdge
  by_cases h : k ∈ m.keys
  · simp [h, GMap.insert]
  · simp [h]

theorem find_addEdge (m : GMap) (k x y : Commit) :
    (m.addEdge k x).find y =
      if k ∈ m.keys ∧ y = k then sinsert (m.find k) x else m.find y := by
  unfold GMap.addEdge
  by_cases h : k ∈ m.keys
  · by_cases hy : y = k <;> simp [h, hy, GMap.insert]
  · simp [h]

theorem find_subset_addEdge (m : GMap) (k x y : Commit) :
    m.find y ⊆ (m.addEdge k x).find y := by
  rw [find_addEdge]
  by_cases h : k ∈ m.keys ∧ y = k
  · rw [if_pos h, h.2]; exact subset_sinsert _ _
  · rw [if_neg h]; exact fun x hx => hx

theorem mem_find_addEdge (m : GMap) (k x y c : Commit) :
    c ∈ (m.addEdge k x).find y ↔
      c ∈ m.find y ∨ (k ∈ m.keys ∧ y = k ∧ c = x) := by
  rw [find_addEdge]
  by_cases h : k ∈ m.keys ∧ y = k
  · rw [if_pos h]
    obtain ⟨h1, h2⟩ := h
    subst h2
    rw [mem_sinsert]
    constructor
    · rintro (hc | rfl)
      · exact Or.inl hc
      · exact Or.inr ⟨h1, rfl, rfl⟩
    · rintro (hc | ⟨-, -, rfl⟩)
      · exact Or.inl hc
      · exact Or.inr rfl
  · rw [if_neg h]
    constructor
    · exact Or.inl
    · rintro (hc | ⟨h1, h2, h3⟩)
      · exact hc
      · exact absurd ⟨h1, h2⟩ h

/-! ## The oracle adapter (`Repository::merge_base`) -/

/-- Engine state threaded through closure construction: the two adjacency
maps, the merge-base memo cache, and the list of canonical pairs for which
the underlying external oracle has actually been invoked (the invocation
trace; not part of the Rust state, recorded to state memoization claims). -/
structure BSt where
  children : GMap
  parents : GMap
  memo : List ((Commit × Commit) × Commit)
  trace : List (Commit × Commit)

/-- Pair canonicalization before querying and caching:
`let (lhs, rhs) = if rhs > lhs { (rhs, lhs) } else { (lhs, rhs) }`. -/
def canonPair (lhs rhs : Commit) : Commit × Commit :=
  if commitLt lhs rhs then (rhs, lhs) else (lhs, rhs)

/-- Lookup in the memo cache (`self.merge_bases.get(&(lhs, rhs))`). -/
def memoLookup : List ((Commit × Commit) × Commit) → Commit × Commit → Option Commit
  | [], _ => none
  | (q, v) :: rest, p => if q = p then some v else memoLookup rest p

/-- `Repository::merge_base`: canonicalize, consult the cache, otherwise
invoke the external oracle, record the result, and cache it.  `none` models
a failed `git merge-base` invocation (propagated as `OracleError`). -/
def mergeBase (oracle : Commit → Commit → Option Commit) (st : BSt)
    (lhs rhs : Commit) : Option (Commit × BSt) :=
  let p := canonPair lhs rhs
  match memoLookup st.memo p with
  | some c => some (c, st)
  | none =>
    match oracle p.1 p.2 with
    | none => none
    | some c =>
      some (c, { st with memo := (p, c) :: st.memo, trace := st.trace ++ [p] })

/-- A sequence of adapter queries threaded through the state, abstracting an
arbitrary run's usage of the adapter. -/
def runQueries (oracle : Commit → Commit → Option Commit) :
    List (Commit × Commit) → BSt → Option BSt
  | [], st => some st
  | (a, b) :: qs, st =>
    match mergeBase oracle st a b with
    | none => none
    | some (_, st') => runQueries oracle qs st'

/-! ## The closure builder (`Repository::run`, worklist loop) -/

/-- Lines 98-102 of `Repository::run`: when `base` is not yet a key of the
descendant map, insert it with an empty edge set and push it onto the
worklist. -/
def registerBase (children : GMap) (work : List Commit) (base : Commit) :
    GMap × List Commit :=
  if children.contains base then (children, work)
  else (children.insert base [], work ++ [base])

/-- Lines 104-111: record `node` and `newNode` as children of `base`,
skipping self-edges. -/
def addChildEdges (children : GMap) (base node newNode : Commit) : GMap :=
  let c1 := if base = node then children else children.addEdge base node
  if base = newNode then c1 else c1.addEdge base newNode

/-- `if !map.contains_key(&k) { map.insert(k, Default::default()) }`. -/
def ensureKey (m : GMap) (k : Commit) : GMap :=
  if k ∈ m.keys then m else m.insert k []

/-- Lines 113-131: record `base` as a parent of `node` and of `newNode`,
inserting empty entries as needed and skipping self-edges. -/
def addParentEdges (parents : GMap) (base node newNode : Commit) : GMap :=
  let p1 := ensureKey parents node
  let p2 := if base = node then p1 else p1.addEdge node base
  let p3 := ensureKey p2 newNode
  if base = newNode then p3 else p3.addEdge newNode base

/-- One inner-loop iteration of the worklist body of `Repository::run`
(lines 95-132): query the merge-base of `(newNode, node)`, register `base`
as a fresh key and worklist entry when unknown, then record the child and
parent edges.  Returns the updated state and worklist, or `none` on oracle
failure. -/
def innerStep (oracle : Commit → Commit → Option Commit) (newNode node : Commit)
    (st : BSt) (work : List Commit) : Option (BSt × List Commit) :=
  match mergeBase oracle st newNode node with
  | none => none
  | some (base, st1) =>
    let (children2, work2) := registerBase st1.children work base
    some ({ st1 with children := (addChildEdges children2 base node newNode),
                     parents := (addParentEdges st1.parents base node newNode) },
          work2)

/-- The inner `for node in keys` loop over the snapshot of the descendant
map's key set. -/
def innerLoop (oracle : Commit → Commit → Option Commit) (newNode : Commit) :
    List Commit → BSt → List Commit → Option (BSt × List Commit)
  | [], st, work => some (st, work)
  | node :: nodes, st, work =>
    match innerStep oracle newNode node st work with
    | none => none
    | some (st', work') => innerLoop oracle newNode nodes st' work'

/-- Result of the closure loop: completed state, propagated oracle failure,
or exhausted fuel (a model artifact: the Rust loop just keeps running). -/
inductive CRes where
  | done (st : BSt)
  | fail
  | out

/-- The outer worklist loop (`while let Some(new_node) = new_nodes.pop_front()`):
pop a new node and run the inner loop over the snapshot of the current
descendant-map keys. -/
def closureLoop (oracle : Commit → Commit → Option Commit) :
    Nat → BSt → List Commit → CRes
  | _, st, [] => .done st
  | 0, _, _ :: _ => .out
  | fuel + 1, st, newNode :: rest =>
    match innerLoop oracle newNode st.children.keys st rest with
    | none => .fail
    | some (st', work') => closureLoop oracle fuel st' work'

/-- Both adjacency maps are seeded with an empty edge set per initial tip
(lines 86-91). -/
def initMaps (tips : List Commit) : GMap :=
  tips.foldl (fun m k => m.insert k []) GMap.empty

/-- The state at the start of the worklist loop. -/
def initSt (tips : List Commit) : BSt :=
  ⟨initMaps tips, initMaps tips, [], []⟩

/-! ## The transitive reducer (`prune_children` / `prune_parents`) -/

/-- The `retain` predicate of `prune_children`: keep `c` when no *other*
member of the `allChildren` snapshot currently lists `c` among its own
direct children. -/
def keep (m : GMap) (all : List Commit) (c : Commit) : Bool :=
  all.all fun p => decide (p = c) || !(decide (c ∈ m.find p))

/-- The recursive pruning pass, with the pending recursive calls as an
explicit depth-first worklist: visiting `parent` snapshots its current set,
replaces the entry by the retained subset, and then recurses into every
member of the snapshot (in order, before the remaining pending calls) —
exactly the call sequence of the Rust recursion.  `none` is fuel
exhaustion (the Rust recursion need not terminate on cyclic maps). -/
def pruneWork : Nat → GMap → List Commit → Option GMap
  | _, m, [] => some m
  | 0, _, _ :: _ => none
  | fuel + 1, m, parent :: rest =>
    let all := m.find parent
    pruneWork fuel (m.insert parent (all.filter (keep m all))) (all ++ rest)

/-- `Repository::prune_children` on the descendant map. -/
def pruneChildren (fuel : Nat) (m : GMap) (parent : Commit) : Option GMap :=
  pruneWork fuel m [parent]

/-- `Repository::prune_parents` on the ancestor map (the identical
algorithm run on the other adjacency map). -/
def pruneParents (fuel : Nat) (m : GMap) (child : Commit) : Option GMap :=
  pruneWork fuel m [child]

/-- Root identification (lines 135-143): the first key in iteration order
whose recorded parent set is empty. -/
def findRoot (m : GMap) : Option Commit :=
  m.keys.find? fun k => (m.find k).isEmpty

/-- Sort key for leaves: `sort_by_key(|leaf| parents.get(leaf).map(|p| p.len()))`
— `None` (absent key) sorts before `Some(n)`, modeled order-isomorphically
by `0` versus `n + 1`. -/
def leafKey (parents : GMap) (l : Commit) : Nat :=
  if l ∈ parents.keys then (parents.find l).length + 1 else 0

/-- Stable insertion used by `sortLeaves`. -/
def insertSorted (le : Commit → Commit → Bool) (x : Commit) :
    List Commit → List Commit
  | [] => [x]
  | y :: ys => if le y x then y :: insertSorted le x ys else x :: y :: ys

/-- A stable sort (Rust's `sort_by_key` is stable; any two stable sorts
agree). -/
def sortByKey (le : Commit → Commit → Bool) : List Commit → List Commit
  | [] => []
  | x :: xs => insertSorted le x (sortByKey le xs)

/-- The leaves, sorted by ascending recorded parent count (lines 147-160). -/
def sortLeaves (parents : GMap) (ls : List Commit) : List Commit :=
  sortByKey (fun a b => decide (leafKey parents a ≤ leafKey parents b)) ls

/-- The leaves of the (already reduced) descendant map: keys with an empty
child set, in iteration order. -/
def leavesOf (children : GMap) : List Commit :=
  children.keys.filter fun k => (children.find k).isEmpty

/-- The whole reduction phase of `Repository::run` (lines 135-164): find the
root, prune the descendant map from it, then prune the ancestor map from
the leaves in ascending-parent-count order.  `none` when no root exists or
on fuel exhaustion. -/
def reduceGraph (fuel : Nat) (children parents : GMap) : Option (GMap × GMap) :=
  match findRoot parents with
  | none => none
  | some root =>
    match pruneWork fuel children [root] with
    | none => none
    | some children' =>
      match pruneWork fuel parents (sortLeaves parents (leavesOf children')) with
      | none => none
      | some parents' => some (children', parents')

/-! ## The label function (`Repository::name`) and graph output -/

/-- Take exactly `n` UTF-8 bytes from a character list, succeeding only when
byte offset `n` falls on a character boundary — the semantics of the Rust
byte slice `&s[0..n]`, which panics (`none`) when the string is shorter than
`n` bytes or offset `n` splits a multi-byte character. -/
def takeBytes : Nat → List Char → Option (List Char)
  | 0, _ => some []
  | _ + 1, [] => none
  | n + 1, c :: cs =>
    if c.utf8Size ≤ n + 1 then (takeBytes (n + 1 - c.utf8Size) cs).map (c :: ·)
    else none

/-- Total UTF-8 byte length of a character list (`str::len`). -/
def utf8Len (s : List Char) : Nat := (s.map Char.utf8Size).sum

/-- Lookup of a commit's branch names (`self.id_to_branches.get(commit)`). -/
def branchLookup : List (Commit × List String) → Commit → Option (List String)
  | [], _ => none
  | (k, v) :: rest, c => if k = c then some v else branchLookup rest c

/-- `Repository::name` (lines 251-267) without terminal coloring: the first
9 bytes of the identifier (`&commit.0.as_str()[0..9]`, `none` = panic), with
the branch names comma-joined and appended when the commit has any. -/
def nameLabel (idToBranches : List (Commit × List String)) (c : Commit) :
    Option String :=
  match takeBytes 9 c.data with
  | none => none
  | some pre9 =>
    match branchLookup idToBranches c with
    | none => some (String.mk pre9)
    | some names => some (String.mk pre9 ++ " " ++ String.intercalate ", " names)

/-- Node declaration lines (lines 167-172): one per key in iteration order,
with the position as the node id.  The Bool is `false` when a label lookup
panicked; lines printed before the panic are kept. -/
def nodeLines (idToBranches : List (Commit × List String)) :
    List Commit → Nat → List String × Bool
  | [], _ => ([], true)
  | c :: cs, i =>
    match nameLabel idToBranches c with
    | none => ([], false)
    | some lbl =>
      let r := nodeLines idToBranches cs (i + 1)
      (("\t" ++ toString i ++ " [label=\"" ++ lbl ++ "\"]") :: r.1, r.2)

/-- Edge lines of one node (inner loop of lines 173-177): `none` index means
`nodes_to_id[child]` would panic. -/
def edgesFor (keys : List Commit) (i : Nat) : List Commit → List String × Bool
  | [] => ([], true)
  | c :: cs =>
    match keys.indexOf? c with
    | none => ([], false)
    | some j =>
      let r := edgesFor keys i cs
      (("\t" ++ toString i ++ " -> " ++ toString j) :: r.1, r.2)

/-- Edge lines over all map entries in iteration order. -/
def edgeLines (keys : List Commit) (g : GMap) : List Commit → Nat → List String × Bool
  | [], _ => ([], true)
  | k :: ks, i =>
    let r := edgesFor keys i (g.find k)
    if r.2 then
      let r' := edgeLines keys g ks (i + 1)
      (r.1 ++ r'.1, r'.2)
    else (r.1, false)

/-- Errors of the modeled run. -/
inductive RunErr where
  | oracleFail
  | noRoot
  deriving DecidableEq, Repr

/-- Outcome of a modeled run: clean exit, propagated error, a Rust panic, or
exhausted model fuel. -/
inductive Outcome where
  | ok
  | err (e : RunErr)
  | panicked
  | fuelOut
  deriving DecidableEq, Repr

/-- A run's observable behavior: everything printed to stdout, in order, and
how the run ended.  On an error exit nothing has been printed. -/
structure RunResult where
  out : List String
  outcome : Outcome
  deriving DecidableEq, Repr

/-- The printing phase (lines 166-178): header, node declarations, edges,
footer. -/
def printGraph (idToBranches : List (Commit × List String)) (g : GMap) :
    RunResult :=
  let nl := nodeLines idToBranches g.keys 0
  if nl.2 then
    let el := edgeLines g.keys g g.keys 0
    if el.2 then ⟨"digraph \x7b" :: (nl.1 ++ el.1 ++ ["\x7d"]), .ok⟩
    else ⟨"digraph \x7b" :: (nl.1 ++ el.1), .panicked⟩
  else ⟨"digraph \x7b" :: nl.1, .panicked⟩

/-- The whole of `Repository::run` after branch discovery: closure
construction from the tips (the keys of `id_to_branches`), root finding,
both reduction passes, then rendering.  Oracle failure and a missing root
abort the run before anything is printed. -/
def runModel (oracle : Commit → Commit → Option Commit)
    (idToBranches : List (Commit × List String)) (fuel : Nat) : RunResult :=
  let tips := idToBranches.map Prod.fst
  match closureLoop oracle fuel (initSt tips) tips with
  | .out => ⟨[], .fuelOut⟩
  | .fail => ⟨[], .err .oracleFail⟩
  | .done st =>
    match reduceGraph fuel st.children st.parents with
    | none =>
      match findRoot st.parents with
      | none => ⟨[], .err .noRoot⟩
      | some _ => ⟨[], .fuelOut⟩
    | some (children', _) => printGraph idToBranches children'

/-! ## Properties of the pruning pass -/

/-- No node lists itself among its own direct edges. -/
def NoSelf (m : GMap) : Prop := ∀ k, k ∉ m.find k

/-- A node is stable under pruning: re-filtering its entry changes nothing. -/
def Done (m : GMap) (p : Commit) : Prop :=
  (m.find p).filter (keep m (m.find p)) = m.find p

theorem pruneWork_nil (f : Nat) (m : GMap) : pruneWork f m [] = some m := by
  cases f <;> rfl

theorem pruneWork_cons (f : Nat) (m : GMap) (p : Commit) (rest : List Commit) :
    pruneWork (f + 1) m (p :: rest) =
      pruneWork f (m.insert p ((m.find p).filter (keep m (m.find p))))
        (m.find p ++ rest) := rfl

theorem pruneWork_zero_cons (m : GMap) (p : Commit) (rest : List Commit) :
    pruneWork 0 m (p :: rest) = none := rfl

/-- The retain predicate of `prune_children`, logically: keep `c` iff no
other member of the snapshot currently lists `c` among its children. -/
theorem keep_iff (m : GMap) (all : List Commit) (c : Commit) :
    keep m all c = true ↔ ∀ p ∈ all, p ≠ c → c ∉ m.find p := by
  unfold keep
  rw [List.all_eq_true]
  constructor
  · intro h p hp hne hmem
    have := h p hp
    simp only [Bool.or_eq_true, decide_eq_true_eq, Bool.not_eq_true',
      decide_eq_false_iff_not] at this
    rcases this with h1 | h1
    · exact hne h1
    · exact h1 hmem
  · intro h p hp
    simp only [Bool.or_eq_true, decide_eq_true_eq, Bool.not_eq_true',
      decide_eq_false_iff_not]
    by_cases hpc : p = c
    · exact Or.inl hpc
    · exact Or.inr (h p hp hpc)

theorem done_iff (m : GMap) (p : Commit) :
    Done m p ↔ ∀ c ∈ m.find p, ∀ c' ∈ m.find p, c' ≠ c → c ∉ m.find c' := by
  unfold Done
  rw [List.filter_eq_self]
  constructor
  · intro h c hc c' hc' hne
    exact ((keep_iff m _ c).1 (h c hc)) c' hc' hne
  · intro h c hc
    exact (keep_iff m _ c).2 fun c' hc' hne => h c hc c' hc' hne

/-- `Done` depends only on the lookup function. -/
theorem done_congr (m m' : GMap) (hf : ∀ x, m.find x = m'.find x) (p : Commit) :
    Done m p → Done m' p := by
  rw [done_iff, done_iff]
  intro h c hc c' hc' hne
  rw [← hf] at hc hc' ⊢
  exact h c hc c' hc' hne

/-- More fuel never changes a successful pruning run. -/
theorem pruneWork_fuel_mono (f : Nat) : ∀ f' m ws m', f ≤ f' →
    pruneWork f m ws = some m' → pruneWork f' m ws = some m' := by
  induction f with
  | zero =>
    intro f' m ws m' _ h
    cases ws with
    | nil => rw [pruneWork_nil] at h; rw [pruneWork_nil]; exact h
    | cons p rest => rw [pruneWork_zero_cons] at h; cases h
  | succ f ih =>
    intro f' m ws m' hle h
    cases ws with
    | nil => rw [pruneWork_nil] at h; rw [pruneWork_nil]; exact h
    | cons p rest =>
      obtain ⟨f'', rfl⟩ : ∃ f'', f' = f'' + 1 :=
        ⟨f' - 1, by omega⟩
      rw [pruneWork_cons] at h
      rw [pruneWork_cons]
      exact ih f'' _ _ _ (by omega) h

/-- Two successful pruning runs (any fuels) agree. -/
theorem pruneWork_det (f f' : Nat) (m : GMap) (ws : List Commit) (r r' : GMap)
    (h : pruneWork f m ws = some r) (h' : pruneWork f' m ws = some r') :
    r = r' := by
  rcases Nat.le_total f f' with hle | hle
  · have := pruneWork_fuel_mono f f' m ws r hle h
    rw [this] at h'; exact Option.some.inj h'
  · have := pruneWork_fuel_mono f' f m ws r' hle h'
    rw [this] at h; exact (Option.some.inj h).symm

/-- Pruning only shrinks entries: every final entry is a sublist of the
initial one. -/
theorem pruneWork_find_sub (f : Nat) : ∀ m ws m',
    pruneWork f m ws = some m' → ∀ k, (m'.find k).Sublist (m.find k) := by
  induction f with
  | zero =>
    intro m ws m' h k
    cases ws with
    | nil => rw [pruneWork_nil] at h; cases h; exact List.Sublist.refl _
    | cons p rest => rw [pruneWork_zero_cons] at h; cases h
  | succ f ih =>
    intro m ws m' h k
    cases ws with
    | nil => rw [pruneWork_nil] at h; cases h; exact List.Sublist.refl _
    | cons p rest =>
      rw [pruneWork_cons] at h
      refine (ih _ _ _ h k).trans ?_
      rw [GMap.find_insert]
      by_cases hk : k = p
      · rw [if_pos hk, hk]; exact List.filter_sublist _
      · rw [if_neg hk]

/-- Pruning never removes keys. -/
theorem pruneWork_keys_sub (f : Nat) : ∀ m ws m',
    pruneWork f m ws = some m' → m.keys ⊆ m'.keys := by
  induction f with
  | zero =>
    intro m ws m' h
    cases ws with
    | nil => rw [pruneWork_nil] at h; cases h; exact fun x hx => hx
    | cons p rest => rw [pruneWork_zero_cons] at h; cases h
  | succ f ih =>
    intro m ws m' h
    cases ws with
    | nil => rw [pruneWork_nil] at h; cases h; exact fun x hx => hx
    | cons p rest =>
      rw [pruneWork_cons] at h
      exact fun x hx => ih _ _ _ h (keys_subset_insert m p _ hx)

/-- Pruning preserves the absence of self-edges. -/
theorem pruneWork_noSelf (f : Nat) : ∀ m ws m', NoSelf m →
    pruneWork f m ws = some m' → NoSelf m' := by
  induction f with
  | zero =>
    intro m ws m' hNS h
    cases ws with
    | nil => rw [pruneWork_nil] at h; cases h; exact hNS
    | cons p rest => rw [pruneWork_zero_cons] at h; cases h
  | succ f ih =>
    intro m ws m' hNS h
    cases ws with
    | nil => rw [pruneWork_nil] at h; cases h; exact hNS
    | cons p rest =>
      rw [pruneWork_cons] at h
      refine ih _ _ _ ?_ h
      intro k
      rw [GMap.find_insert]
      by_cases hk : k = p
      · rw [if_pos hk]
        intro hmem
        subst hk
        exact hNS k ((List.filter_sublist _).subset hmem)
      · rw [if_neg hk]; exact hNS k

/-- Visiting a node makes it stable (in the absence of self-edges): no two
distinct retained children list one another. -/
theorem step_done (m : GMap) (p : Commit) (hNS : NoSelf m) :
    Done (m.insert p ((m.find p).filter (keep m (m.find p)))) p := by
  rw [done_iff]
  intro c hc c' hc' hne
  rw [GMap.find_insert, if_pos rfl] at hc hc'
  have hc'all : c' ∈ m.find p := (List.filter_sublist _).subset hc'
  have hc'p : c' ≠ p := by
    rintro rfl
    exact hNS _ hc'all
  rw [GMap.find_insert, if_neg hc'p]
  have hkeep : keep m (m.find p) c = true := (List.mem_filter.1 hc).2
  exact (keep_iff m _ c).1 hkeep c' hc'all hne

/-- One pruning visit preserves the stability of every node. -/
theorem step_done_preserved (m : GMap) (p q : Commit) (hq : Done m q) :
    Done (m.insert p ((m.find p).filter (keep m (m.find p)))) q := by
  by_cases hqp : q = p
  · subst hqp
    have hfix : (m.find q).filter (keep m (m.find q)) = m.find q := hq
    rw [hfix]
    refine done_congr m _ ?_ q hq
    intro x
    rw [GMap.find_insert]
    by_cases hx : x = q
    · rw [if_pos hx, hx]
    · rw [if_neg hx]
  · rw [done_iff] at hq ⊢
    intro c hc c' hc' hne
    rw [GMap.find_insert, if_neg hqp] at hc hc'
    rw [GMap.find_insert]
    by_cases hc'p : c' = p
    · rw [if_pos hc'p]
      intro hmem
      exact hq c hc c' hc' hne (by rw [hc'p]; exact (List.filter_sublist _).subset hmem)
    · rw [if_neg hc'p]
      exact hq c hc c' hc' hne

/-- A whole pruning run preserves the stability of every node. -/
theorem pruneWork_done_preserved (f : Nat) : ∀ m ws m',
    pruneWork f m ws = some m' → ∀ q, Done m q → Done m' q := by
  induction f with
  | zero =>
    intro m ws m' h q hq
    cases ws with
    | nil => rw [pruneWork_nil] at h; cases h; exact hq
    | cons p rest => rw [pruneWork_zero_cons] at h; cases h
  | succ f ih =>
    intro m ws m' h q hq
    cases ws with
    | nil => rw [pruneWork_nil] at h; cases h; exact hq
    | cons p rest =>
      rw [pruneWork_cons] at h
      exact ih _ _ _ h q (step_done_preserved m p q hq)

/-- After a successful pruning run, every node of the worklist is stable in
the final map. -/
theorem pruneWork_done_of_mem (f : Nat) : ∀ m ws m', NoSelf m →
    pruneWork f m ws = some m' → ∀ q ∈ ws, Done m' q := by
  induction f with
  | zero =>
    intro m ws m' _ h q hq
    cases ws with
    | nil => cases hq
    | cons p rest => rw [pruneWork_zero_cons] at h; cases h
  | succ f ih =>
    intro m ws m' hNS h q hq
    cases ws with
    | nil => cases hq
    | cons p rest =>
      rw [pruneWork_cons] at h
      rcases List.mem_cons.1 hq with rfl | hq'
      · exact pruneWork_done_preserved f _ _ _ h q (step_done m q hNS)
      · have hNS1 : NoSelf (m.insert p ((m.find p).filter (keep m (m.find p)))) := by
          intro k
          rw [GMap.find_insert]
          by_cases hk : k = p
          · rw [if_pos hk]
            intro hmem
            subst hk
            exact hNS k ((List.filter_sublist _).subset hmem)
          · rw [if_neg hk]; exact hNS k
        exact ih _ _ _ hNS1 h q (List.mem_append.2 (Or.inr hq'))

/-- One pruning visit preserves the absence of self-edges. -/
theorem step_noSelf (m : GMap) (p : Commit) (hNS : NoSelf m) :
    NoSelf (m.insert p ((m.find p).filter (keep m (m.find p)))) := by
  intro k
  rw [GMap.find_insert]
  by_cases hk : k = p
  · rw [if_pos hk]
    intro hmem
    subst hk
    exact hNS k ((List.filter_sublist _).subset hmem)
  · rw [if_neg hk]; exact hNS k

/-- Re-running a pruning pass on the result of a successful pass — over the
same worklist or any sublist of it — changes nothing: the first pass left
every visited node stable.  This is the heart of the idempotence of the
transitive reducer. -/
theorem pruneWork_again (f : Nat) : ∀ m ws m', NoSelf m →
    pruneWork f m ws = some m' →
    ∀ ws', ws'.Sublist ws → pruneWork f m' ws' = some m' := by
  induction f with
  | zero =>
    intro m ws m' _ h ws' hsub
    cases ws with
    | nil =>
      rw [pruneWork_nil] at h; cases h
      rw [List.sublist_nil.1 hsub, pruneWork_nil]
    | cons p rest => rw [pruneWork_zero_cons] at h; cases h
  | succ f ih =>
    intro m ws m' hNS h ws' hsub
    cases ws with
    | nil =>
      rw [pruneWork_nil] at h; cases h
      rw [List.sublist_nil.1 hsub, pruneWork_nil]
    | cons p rest =>
      have hDone : Done m' p :=
        pruneWork_done_of_mem (f + 1) m (p :: rest) m' hNS h p (List.mem_cons_self p rest)
      rw [pruneWork_cons] at h
      have hNS1 := step_noSelf m p hNS
      have hfind : (m.insert p ((m.find p).filter (keep m (m.find p)))).find p =
          (m.find p).filter (keep m (m.find p)) := by
        rw [GMap.find_insert, if_pos rfl]
      cases hsub with
      | cons _ hsub' =>
        have hrs : ws'.Sublist (m.find p ++ rest) :=
          hsub'.trans (List.sublist_append_right _ _)
        exact pruneWork_fuel_mono f (f + 1) _ _ _ (Nat.le_succ f)
          (ih _ _ _ hNS1 h ws' hrs)
      | cons₂ ws'' hsub' =>
        rw [pruneWork_cons]
        have hkeys : p ∈ m'.keys :=
          pruneWork_keys_sub f _ _ _ h
            ((mem_keys_insert m p _ p).2 (Or.inr rfl))
        have hsubp : (m'.find p).Sublist (m.find p) := by
          have := pruneWork_find_sub f _ _ _ h p
          rw [hfind] at this
          exact this.trans (List.filter_sublist _)
        rw [show (m'.find p).filter (keep m' (m'.find p)) = m'.find p from hDone,
          GMap.insert_self m' p hkeys]
        exact ih _ _ _ hNS1 h _ (hsubp.append hsub')

/-- Sequential pruning runs compose into one run over the concatenated
worklist (with the fuels added). -/
theorem pruneWork_append (f : Nat) : ∀ k m ws1 ws2 mid r,
    pruneWork f m ws1 = some mid → pruneWork k mid ws2 = some r →
    pruneWork (f + k) m (ws1 ++ ws2) = some r := by
  induction f with
  | zero =>
    intro k m ws1 ws2 mid r h1 h2
    cases ws1 with
    | nil =>
      rw [pruneWork_nil] at h1; cases h1
      rw [Nat.zero_add, List.nil_append]; exact h2
    | cons p rest => rw [pruneWork_zero_cons] at h1; cases h1
  | succ f ih =>
    intro k m ws1 ws2 mid r h1 h2
    cases ws1 with
    | nil =>
      rw [pruneWork_nil] at h1; cases h1
      rw [List.nil_append]
      exact pruneWork_fuel_mono k (f + 1 + k) _ _ _ (by omega) h2
    | cons p rest =>
      rw [pruneWork_cons] at h1
      have := ih k _ _ ws2 mid r h1 h2
      rw [List.cons_append,
        show f + 1 + k = (f + k) + 1 from by omega, pruneWork_cons]
      rw [List.append_assoc] at this
      exact this

/-- If every singleton worklist leaves `m` fixed, so does any worklist (for
some fuel). -/
theorem pruneWork_exists_of_singles : ∀ ws (m : GMap),
    (∀ l ∈ ws, ∃ f, pruneWork f m [l] = some m) →
    ∃ F, pruneWork F m ws = some m := by
  intro ws
  induction ws with
  | nil => intro m _; exact ⟨0, pruneWork_nil 0 m⟩
  | cons l rest ih =>
    intro m h
    obtain ⟨f, hf⟩ := h l (List.mem_cons_self l rest)
    obtain ⟨F, hF⟩ := ih m fun x hx => h x (List.mem_cons_of_mem l hx)
    exact ⟨f + F, pruneWork_append f F m [l] rest m m hf hF⟩

/-- A map is closed when every recorded edge target is a key. -/
def Closed (m : GMap) : Prop := ∀ k x, x ∈ m.find k → x ∈ m.keys

/-- Pruning a closed map from keys keeps the key list unchanged and the map
closed. -/
theorem pruneWork_keys_fixed (f : Nat) : ∀ m ws m', Closed m →
    (∀ l ∈ ws, l ∈ m.keys) → pruneWork f m ws = some m' →
    m'.keys = m.keys ∧ Closed m' := by
  induction f with
  | zero =>
    intro m ws m' hC hW h
    cases ws with
    | nil => rw [pruneWork_nil] at h; cases h; exact ⟨rfl, hC⟩
    | cons p rest => rw [pruneWork_zero_cons] at h; cases h
  | succ f ih =>
    intro m ws m' hC hW h
    cases ws with
    | nil => rw [pruneWork_nil] at h; cases h; exact ⟨rfl, hC⟩
    | cons p rest =>
      rw [pruneWork_cons] at h
      have hp : p ∈ m.keys := hW p (List.mem_cons_self p rest)
      have hkeys1 : (m.insert p ((m.find p).filter (keep m (m.find p)))).keys = m.keys := by
        rw [GMap.keys_insert, if_pos hp]
      have hC1 : Closed (m.insert p ((m.find p).filter (keep m (m.find p)))) := by
        intro k x hx
        rw [GMap.find_insert] at hx
        rw [hkeys1]
        by_cases hk : k = p
        · rw [if_pos hk] at hx
          exact hC p x ((List.filter_sublist _).subset hx)
        · rw [if_neg hk] at hx
          exact hC k x hx
      have hW1 : ∀ l ∈ m.find p ++ rest,
          l ∈ (m.insert p ((m.find p).filter (keep m (m.find p)))).keys := by
        intro l hl
        rw [hkeys1]
        rcases List.mem_append.1 hl with hl' | hl'
        · exact hC p l hl'
        · exact hW l (List.mem_cons_of_mem p hl')
      obtain ⟨hk', hC'⟩ := ih _ _ _ hC1 hW1 h
      exact ⟨by rw [hk', hkeys1], hC'⟩

theorem mem_insertSorted (le : Commit → Commit → Bool) (x c : Commit) :
    ∀ l, c ∈ insertSorted le x l ↔ c ∈ x :: l := by
  intro l
  induction l with
  | nil => simp [insertSorted]
  | cons y ys ih =>
    unfold insertSorted
    by_cases h : le y x
    · rw [if_pos h]
      simp only [List.mem_cons] at ih ⊢
      tauto
    · rw [if_neg (by simpa using h)]

theorem mem_sortByKey (le : Commit → Commit → Bool) (c : Commit) :
    ∀ l, c ∈ sortByKey le l ↔ c ∈ l := by
  intro l
  induction l with
  | nil => simp [sortByKey]
  | cons x xs ih =>
    unfold sortByKey
    rw [mem_insertSorted]
    simp only [List.mem_cons, ih]

theorem mem_sortLeaves (parents : GMap) (ls : List Commit) (c : Commit) :
    c ∈ sortLeaves parents ls ↔ c ∈ ls := mem_sortByKey _ c ls

/-! ## Effect of one closure-builder iteration -/

/-- Reachable maps store nothing off their key set (a `HashMap` has no value
for an absent key; the model's default is `[]`). -/
def OffEmpty (m : GMap) : Prop := ∀ k, k ∉ m.keys → m.find k = []

theorem offEmpty_insert (m : GMap) (k : Commit) (v : List Commit)
    (h : OffEmpty m) : OffEmpty (m.insert k v) := by
  intro x hx
  rw [mem_keys_insert] at hx
  push_neg at hx
  rw [GMap.find_insert, if_neg hx.2]
  exact h x hx.1

theorem offEmpty_addEdge (m : GMap) (k x : Commit) (h : OffEmpty m) :
    OffEmpty (m.addEdge k x) := by
  intro y hy
  rw [keys_addEdge] at hy
  rw [find_addEdge]
  by_cases hc : k ∈ m.keys ∧ y = k
  · exact absurd (hc.2 ▸ hc.1) hy
  · rw [if_neg hc]; exact h y hy

/-- `mergeBase` touches only the memo and the trace. -/
theorem mergeBase_maps (oracle : Commit → Commit → Option Commit) (st : BSt)
    (l r : Commit) (c : Commit) (st1 : BSt)
    (h : mergeBase oracle st l r = some (c, st1)) :
    st1.children = st.children ∧ st1.parents = st.parents := by
  simp only [mergeBase] at h
  rcases hm : memoLookup st.memo (canonPair l r) with _ | v
  · rw [hm] at h
    simp only at h
    rcases ho : oracle (canonPair l r).1 (canonPair l r).2 with _ | v'
    · rw [ho] at h; cases h
    · rw [ho] at h
      cases h
      exact ⟨rfl, rfl⟩
  · rw [hm] at h
    simp only [Option.some.injEq, Prod.mk.injEq] at h
    rw [← h.2]
    exact ⟨rfl, rfl⟩

/-- What `mergeBase` does to the memo: a cache hit leaves it unchanged, a
miss invokes the oracle on the canonical pair and records the answer. -/
theorem mergeBase_memo (oracle : Commit → Commit → Option Commit) (st : BSt)
    (l r : Commit) (c : Commit) (st1 : BSt)
    (h : mergeBase oracle st l r = some (c, st1)) :
    (st1.memo = st.memo ∧ memoLookup st.memo (canonPair l r) = some c) ∨
    (st1.memo = (canonPair l r, c) :: st.memo ∧
      memoLookup st.memo (canonPair l r) = none ∧
      oracle (canonPair l r).1 (canonPair l r).2 = some c) := by
  simp only [mergeBase] at h
  rcases hm : memoLookup st.memo (canonPair l r) with _ | v
  · rw [hm] at h
    simp only at h
    rcases ho : oracle (canonPair l r).1 (canonPair l r).2 with _ | v'
    · rw [ho] at h; cases h
    · rw [ho] at h
      cases h
      exact Or.inr ⟨rfl, rfl, rfl⟩
  · rw [hm] at h
    simp only [Option.some.injEq, Prod.mk.injEq] at h
    obtain ⟨h1, h2⟩ := h
    subst h1
    subst h2
    exact Or.inl ⟨rfl, rfl⟩

/-- The canonical pair is the unordered input pair. -/
theorem canonPair_cases (l r : Commit) :
    canonPair l r = (r, l) ∨ canonPair l r = (l, r) := by
  unfold canonPair
  by_cases h : commitLt l r
  · rw [if_pos h]; exact Or.inl rfl
  · rw [if_neg h]; exact Or.inr rfl

theorem registerBase_spec (ch : GMap) (work : List Commit) (b : Commit)
    (ch2 : GMap) (work2 : List Commit) (hOff : OffEmpty ch)
    (heq : registerBase ch work b = (ch2, work2)) :
    (∀ x, ch2.find x = ch.find x) ∧
    (∀ x, x ∈ ch2.keys ↔ x ∈ ch.keys ∨ x = b) ∧
    b ∈ ch2.keys ∧ OffEmpty ch2 ∧
    ((b ∈ ch.keys ∧ work2 = work) ∨ (b ∉ ch.keys ∧ work2 = work ++ [b])) := by
  unfold registerBase at heq
  by_cases hb : b ∈ ch.keys
  · rw [if_pos (by simpa [GMap.contains] using hb)] at heq
    cases heq
    refine ⟨fun x => rfl, fun x => ?_, hb, hOff, Or.inl ⟨hb, rfl⟩⟩
    constructor
    · exact Or.inl
    · rintro (hx | rfl) <;> assumption
  · rw [if_neg (by simpa [GMap.contains] using hb)] at heq
    cases heq
    refine ⟨fun x => ?_, fun x => mem_keys_insert ch b [] x, ?_, ?_, Or.inr ⟨hb, rfl⟩⟩
    · rw [GMap.find_insert]
      by_cases hx : x = b
      · rw [if_pos hx, hx, hOff b hb]
      · rw [if_neg hx]
    · exact (mem_keys_insert ch b [] b).2 (Or.inr rfl)
    · exact offEmpty_insert ch b [] hOff

theorem keys_addChildEdges (ch : GMap) (b u n : Commit) :
    (addChildEdges ch b u n).keys = ch.keys := by
  unfold addChildEdges
  by_cases h1 : b = u
  · rw [if_pos h1]
    by_cases h2 : b = n
    · rw [if_pos h2]
    · rw [if_neg h2, keys_addEdge]
  · rw [if_neg h1]
    by_cases h2 : b = n
    · rw [if_pos h2, keys_addEdge]
    · rw [if_neg h2, keys_addEdge, keys_addEdge]

theorem mem_find_addChildEdges (ch : GMap) (b u n : Commit) (hb : b ∈ ch.keys)
    (k c : Commit) :
    c ∈ (addChildEdges ch b u n).find k ↔
      c ∈ ch.find k ∨ (k = b ∧ ((c = u ∧ b ≠ u) ∨ (c = n ∧ b ≠ n))) := by
  unfold addChildEdges
  by_cases h1 : b = u <;> by_cases h2 : b = n
  · simp only [if_pos h1, if_pos h2]
    constructor
    · exact Or.inl
    · rintro (hc | ⟨rfl, ⟨rfl, hne⟩ | ⟨rfl, hne⟩⟩)
      · exact hc
      · exact absurd h1 hne
      · exact absurd h2 hne
  · simp only [if_pos h1, if_neg h2]
    rw [mem_find_addEdge]
    constructor
    · rintro (hc | ⟨-, rfl, rfl⟩)
      · exact Or.inl hc
      · exact Or.inr ⟨rfl, Or.inr ⟨rfl, h2⟩⟩
    · rintro (hc | ⟨rfl, ⟨rfl, hne⟩ | ⟨rfl, hne⟩⟩)
      · exact Or.inl hc
      · exact absurd h1 hne
      · exact Or.inr ⟨hb, rfl, rfl⟩
  · simp only [if_neg h1, if_pos h2]
    rw [mem_find_addEdge]
    constructor
    · rintro (hc | ⟨-, rfl, rfl⟩)
      · exact Or.inl hc
      · exact Or.inr ⟨rfl, Or.inl ⟨rfl, h1⟩⟩
    · rintro (hc | ⟨rfl, ⟨rfl, hne⟩ | ⟨rfl, hne⟩⟩)
      · exact Or.inl hc
      · exact Or.inr ⟨hb, rfl, rfl⟩
      · exact absurd h2 hne
  · simp only [if_neg h1, if_neg h2]
    rw [mem_find_addEdge, mem_find_addEdge, keys_addEdge]
    constructor
    · rintro ((hc | ⟨-, rfl, rfl⟩) | ⟨-, rfl, rfl⟩)
      · exact Or.inl hc
      · exact Or.inr ⟨rfl, Or.inl ⟨rfl, h1⟩⟩
      · exact Or.inr ⟨rfl, Or.inr ⟨rfl, h2⟩⟩
    · rintro (hc | ⟨rfl, ⟨rfl, hne⟩ | ⟨rfl, hne⟩⟩)
      · exact Or.inl (Or.inl hc)
      · exact Or.inl (Or.inr ⟨hb, rfl, rfl⟩)
      · exact Or.inr ⟨hb, rfl, rfl⟩

theorem offEmpty_addChildEdges (ch : GMap) (b u n : Commit) (h : OffEmpty ch) :
    OffEmpty (addChildEdges ch b u n) := by
  unfold addChildEdges
  by_cases h1 : b = u
  · rw [if_pos h1]
    by_cases h2 : b = n
    · rw [if_pos h2]; exact h
    · rw [if_neg h2]; exact offEmpty_addEdge _ _ _ h
  · rw [if_neg h1]
    by_cases h2 : b = n
    · rw [if_pos h2]; exact offEmpty_addEdge _ _ _ h
    · rw [if_neg h2]; exact offEmpty_addEdge _ _ _ (offEmpty_addEdge _ _ _ h)

theorem mem_keys_ensureKey (m : GMap) (k x : Commit) :
    x ∈ (ensureKey m k).keys ↔ x ∈ m.keys ∨ x = k := by
  unfold ensureKey
  by_cases h : k ∈ m.keys
  · rw [if_pos h]
    constructor
    · exact Or.inl
    · rintro (hx | rfl) <;> assumption
  · rw [if_neg h]
    exact mem_keys_insert m k [] x

theorem self_mem_keys_ensureKey (m : GMap) (k : Commit) :
    k ∈ (ensureKey m k).keys := (mem_keys_ensureKey m k k).2 (Or.inr rfl)

theorem find_ensureKey (m : GMap) (k : Commit) (hOff : OffEmpty m) (x : Commit) :
    (ensureKey m k).find x = m.find x := by
  unfold ensureKey
  by_cases h : k ∈ m.keys
  · rw [if_pos h]
  · rw [if_neg h, GMap.find_insert]
    by_cases hx : x = k
    · rw [if_pos hx, hx, hOff k h]
    · rw [if_neg hx]

theorem offEmpty_ensureKey (m : GMap) (k : Commit) (hOff : OffEmpty m) :
    OffEmpty (ensureKey m k) := by
  unfold ensureKey
  by_cases h : k ∈ m.keys
  · rw [if_pos h]; exact hOff
  · rw [if_neg h]; exact offEmpty_insert m k [] hOff

theorem keys_condAdd (m : GMap) (k b : Commit) :
    (if b = k then m else m.addEdge k b).keys = m.keys := by
  by_cases h : b = k
  · rw [if_pos h]
  · rw [if_neg h, keys_addEdge]

theorem mem_find_condAdd (m : GMap) (k b : Commit) (hk : k ∈ m.keys) (x c : Commit) :
    c ∈ (if b = k then m else m.addEdge k b).find x ↔
      c ∈ m.find x ∨ (x = k ∧ c = b ∧ b ≠ k) := by
  by_cases h : b = k
  · rw [if_pos h]
    constructor
    · exact Or.inl
    · rintro (hc | ⟨-, -, hne⟩)
      · exact hc
      · exact absurd h hne
  · rw [if_neg h, mem_find_addEdge]
    constructor
    · rintro (hc | ⟨-, rfl, rfl⟩)
      · exact Or.inl hc
      · exact Or.inr ⟨rfl, rfl, h⟩
    · rintro (hc | ⟨rfl, rfl, -⟩)
      · exact Or.inl hc
      · exact Or.inr ⟨hk, rfl, rfl⟩

theorem offEmpty_condAdd (m : GMap) (k b : Commit) (hOff : OffEmpty m) :
    OffEmpty (if b = k then m else m.addEdge k b) := by
  by_cases h : b = k
  · rw [if_pos h]; exact hOff
  · rw [if_neg h]; exact offEmpty_addEdge m k b hOff

theorem addParentEdges_spec (p : GMap) (b u n : Commit) (hOff : OffEmpty p) :
    (∀ x, x ∈ (addParentEdges p b u n).keys ↔ x ∈ p.keys ∨ x = u ∨ x = n) ∧
    (∀ x c, c ∈ (addParentEdges p b u n).find x ↔
      c ∈ p.find x ∨ (x = u ∧ c = b ∧ b ≠ u) ∨ (x = n ∧ c = b ∧ b ≠ n)) ∧
    OffEmpty (addParentEdges p b u n) := by
  unfold addParentEdges
  have hOff1 : OffEmpty (ensureKey p u) := offEmpty_ensureKey p u hOff
  have hu1 : u ∈ (ensureKey p u).keys := self_mem_keys_ensureKey p u
  have hOff2 : OffEmpty (if b = u then ensureKey p u else (ensureKey p u).addEdge u b) :=
    offEmpty_condAdd _ u b hOff1
  have hk2 : ∀ x, x ∈ (if b = u then ensureKey p u else (ensureKey p u).addEdge u b).keys ↔
      x ∈ p.keys ∨ x = u := by
    intro x
    rw [keys_condAdd, mem_keys_ensureKey]
  have hf2 : ∀ x c,
      c ∈ (if b = u then ensureKey p u else (ensureKey p u).addEdge u b).find x ↔
        c ∈ p.find x ∨ (x = u ∧ c = b ∧ b ≠ u) := by
    intro x c
    rw [mem_find_condAdd _ u b hu1, find_ensureKey p u hOff]
  set p2 := if b = u then ensureKey p u else (ensureKey p u).addEdge u b with hp2
  have hOff3 : OffEmpty (ensureKey p2 n) := offEmpty_ensureKey p2 n hOff2
  have hn3 : n ∈ (ensureKey p2 n).keys := self_mem_keys_ensureKey p2 n
  refine ⟨?_, ?_, ?_⟩
  · intro x
    rw [keys_condAdd, mem_keys_ensureKey, hk2]
    tauto
  · intro x c
    rw [mem_find_condAdd _ n b hn3, find_ensureKey p2 n hOff2, hf2]
    tauto
  · exact offEmpty_condAdd _ n b hOff3

/-- Complete effect of one inner-loop iteration on maps, worklist and memo:
the oracle answer `b` gains `node` and `newNode` as children (no
self-edges), `node` and `newNode` gain `b` as parent (no self-edges) and
become keyed in the ancestor map, `b` becomes keyed in the descendant map
and is pushed exactly when it was unknown. -/
theorem innerStep_spec (oracle : Commit → Commit → Option Commit)
    (nn u : Commit) (st : BSt) (work : List Commit) (st' : BSt)
    (work' : List Commit) (hOffC : OffEmpty st.children)
    (hOffP : OffEmpty st.parents)
    (h : innerStep oracle nn u st work = some (st', work')) :
    ∃ b : Commit,
      (∀ k c, c ∈ st'.children.find k ↔
        c ∈ st.children.find k ∨
          (k = b ∧ ((c = u ∧ b ≠ u) ∨ (c = nn ∧ b ≠ nn)))) ∧
      (∀ x, x ∈ st'.children.keys ↔ x ∈ st.children.keys ∨ x = b) ∧
      (∀ x c, c ∈ st'.parents.find x ↔
        c ∈ st.parents.find x ∨
          (x = u ∧ c = b ∧ b ≠ u) ∨ (x = nn ∧ c = b ∧ b ≠ nn)) ∧
      (∀ x, x ∈ st'.parents.keys ↔ x ∈ st.parents.keys ∨ x = u ∨ x = nn) ∧
      OffEmpty st'.children ∧ OffEmpty st'.parents ∧
      ((b ∈ st.children.keys ∧ work' = work) ∨
        (b ∉ st.children.keys ∧ work' = work ++ [b])) ∧
      ((st'.memo = st.memo ∧ memoLookup st.memo (canonPair nn u) = some b) ∨
       (st'.memo = (canonPair nn u, b) :: st.memo ∧
         memoLookup st.memo (canonPair nn u) = none ∧
         oracle (canonPair nn u).1 (canonPair nn u).2 = some b)) := by
  unfold innerStep at h
  rcases hmb : mergeBase oracle st nn u with _ | ⟨b, st1⟩
  · rw [hmb] at h; cases h
  · rw [hmb] at h
    obtain ⟨hch, hpar⟩ := mergeBase_maps oracle st nn u b st1 hmb
    have hmemo := mergeBase_memo oracle st nn u b st1 hmb
    dsimp only at h
    rcases hreg : registerBase st1.children work b with ⟨ch2, w2⟩
    rw [hreg] at h
    simp only [Option.some.injEq, Prod.mk.injEq] at h
    obtain ⟨hst', hw'⟩ := h
    obtain ⟨hrfind, hrkeys, hrb, hrOff, hrwork⟩ :=
      registerBase_spec st1.children work b ch2 w2 (hch ▸ hOffC) hreg
    obtain ⟨hpkeys, hpfind, hpOff⟩ :=
      addParentEdges_spec st1.parents b u nn (hpar ▸ hOffP)
    refine ⟨b, ?_, ?_, ?_, ?_, ?_, ?_, ?_, ?_⟩
    · intro k c
      rw [← hst']
      simp only
      rw [mem_find_addChildEdges ch2 b u nn hrb, hrfind, hch]
    · intro x
      rw [← hst']
      simp only
      rw [keys_addChildEdges, hrkeys, hch]
    · intro x c
      rw [← hst']
      simp only
      rw [hpfind, hpar]
    · intro x
      rw [← hst']
      simp only
      rw [hpkeys, hpar]
    · rw [← hst']
      simp only
      exact offEmpty_addChildEdges ch2 b u nn hrOff
    · rw [← hst']
      simp only
      exact hpOff
    · rw [← hw', ← hch]
      exact hrwork
    · rw [← hst']
      simp only
      exact hmemo

/-! ## Closure-loop invariants -/

/-- Both maps of a state store nothing off their keys. -/
def OffSt (st : BSt) : Prop := OffEmpty st.children ∧ OffEmpty st.parents

/-- Map symmetry: each recorded child edge has the matching parent edge and
conversely. -/
def SymSt (st : BSt) : Prop :=
  (∀ b c, c ∈ st.children.find b → b ∈ st.parents.find c) ∧
  (∀ x p, p ∈ st.parents.find x → x ∈ st.children.find p)

/-- No self-edges in either map. -/
def NoSelfSt (st : BSt) : Prop := NoSelf st.children ∧ NoSelf st.parents

/-- Every recorded edge endpoint is a key of the descendant map. -/
def ClosedSt (st : BSt) : Prop :=
  (∀ k x, x ∈ st.children.find k → x ∈ st.children.keys) ∧
  (∀ k x, x ∈ st.parents.find k → x ∈ st.children.keys)

/-- The conjunction of the structural state invariants. -/
def StInv (st : BSt) : Prop := OffSt st ∧ SymSt st ∧ NoSelfSt st ∧ ClosedSt st

/-- `u` is linked toward `v`: `u` has some recorded parent, or `v` is a
recorded child of `u` (the disjunction established for each processed
pair). -/
def Connects (st : BSt) (u v : Commit) : Prop :=
  st.parents.find u ≠ [] ∨ v ∈ st.children.find u

/-- Monotonicity of one inner-loop run: maps and worklist only grow, keys
stay off-empty, and every new descendant key is on the worklist. -/
theorem innerLoop_grow (oracle : Commit → Commit → Option Commit) (nn : Commit) :
    ∀ nodes st work st' work', OffSt st →
    innerLoop oracle nn nodes st work = some (st', work') →
    OffSt st' ∧
    (∀ k, st.children.find k ⊆ st'.children.find k) ∧
    (∀ k, st.parents.find k ⊆ st'.parents.find k) ∧
    (∀ x, x ∈ st.children.keys → x ∈ st'.children.keys) ∧
    (∀ x, x ∈ st.parents.keys → x ∈ st'.parents.keys) ∧
    (∀ w, w ∈ work → w ∈ work') ∧
    (∀ x, x ∈ st'.children.keys → x ∈ st.children.keys ∨ x ∈ work') := by
  intro nodes
  induction nodes with
  | nil =>
    intro st work st' work' hOff h
    unfold innerLoop at h
    cases h
    exact ⟨hOff, fun k x hx => hx, fun k x hx => hx, fun x hx => hx,
      fun x hx => hx, fun w hw => hw, fun x hx => Or.inl hx⟩
  | cons u rest ih =>
    intro st work st' work' hOff h
    unfold innerLoop at h
    rcases hstep : innerStep oracle nn u st work with _ | ⟨st1, work1⟩
    · rw [hstep] at h; cases h
    · rw [hstep] at h
      obtain ⟨b, hcf, hck, hpf, hpk, hOffC1, hOffP1, hwork, -⟩ :=
        innerStep_spec oracle nn u st work st1 work1 hOff.1 hOff.2 hstep
      obtain ⟨hOff', hcf', hpf', hck', hpk', hw', hnew'⟩ :=
        ih st1 work1 st' work' ⟨hOffC1, hOffP1⟩ h
      refine ⟨hOff', ?_, ?_, ?_, ?_, ?_, ?_⟩
      · intro k x hx
        exact hcf' k ((hcf k x).2 (Or.inl hx))
      · intro k x hx
        exact hpf' k ((hpf k x).2 (Or.inl hx))
      · intro x hx
        exact hck' x ((hck x).2 (Or.inl hx))
      · intro x hx
        exact hpk' x ((hpk x).2 (Or.inl hx))
      · intro w hw
        rcases hwork with ⟨-, rfl⟩ | ⟨-, rfl⟩
        · exact hw' w hw
        · exact hw' w (List.mem_append.2 (Or.inl hw))
      · intro x hx
        rcases hnew' x hx with hx1 | hx1
        · rcases (hck x).1 hx1 with hx2 | rfl
          · exact Or.inl hx2
          · rcases hwork with ⟨hb, rfl⟩ | ⟨-, rfl⟩
            · exact Or.inl hb
            · exact Or.inr (hw' x (List.mem_append.2 (Or.inr (List.mem_singleton.2 rfl))))
        · exact Or.inr hx1

/-- One inner-loop iteration preserves the structural invariants (given
that both pair members are descendant-map keys). -/
theorem innerStep_inv (oracle : Commit → Commit → Option Commit)
    (nn u : Commit) (st : BSt) (work : List Commit) (st' : BSt)
    (work' : List Commit) (hInv : StInv st)
    (hu : u ∈ st.children.keys) (hnn : nn ∈ st.children.keys)
    (h : innerStep oracle nn u st work = some (st', work')) : StInv st' := by
  obtain ⟨hOff, hSym, hNS, hCl⟩ := hInv
  obtain ⟨b, hcf, hck, hpf, hpk, hOffC1, hOffP1, -, -⟩ :=
    innerStep_spec oracle nn u st work st' work' hOff.1 hOff.2 h
  refine ⟨⟨hOffC1, hOffP1⟩, ⟨?_, ?_⟩, ⟨?_, ?_⟩, ⟨?_, ?_⟩⟩
  · intro k c hc
    rcases (hcf k c).1 hc with hc1 | ⟨rfl, ⟨rfl, hne⟩ | ⟨rfl, hne⟩⟩
    · exact (hpf c k).2 (Or.inl (hSym.1 k c hc1))
    · exact (hpf c k).2 (Or.inr (Or.inl ⟨rfl, rfl, hne⟩))
    · exact (hpf c k).2 (Or.inr (Or.inr ⟨rfl, rfl, hne⟩))
  · intro x p hp
    rcases (hpf x p).1 hp with hp1 | ⟨rfl, rfl, hne⟩ | ⟨rfl, rfl, hne⟩
    · exact (hcf p x).2 (Or.inl (hSym.2 x p hp1))
    · exact (hcf p x).2 (Or.inr ⟨rfl, Or.inl ⟨rfl, hne⟩⟩)
    · exact (hcf p x).2 (Or.inr ⟨rfl, Or.inr ⟨rfl, hne⟩⟩)
  · intro k hk
    rcases (hcf k k).1 hk with hk1 | ⟨rfl, ⟨rfl, hne⟩ | ⟨rfl, hne⟩⟩
    · exact hNS.1 k hk1
    · exact hne rfl
    · exact hne rfl
  · intro k hk
    rcases (hpf k k).1 hk with hk1 | ⟨rfl, rfl, hne⟩ | ⟨rfl, rfl, hne⟩
    · exact hNS.2 k hk1
    · exact hne rfl
    · exact hne rfl
  · intro k x hx
    rcases (hcf k x).1 hx with hx1 | ⟨rfl, ⟨rfl, -⟩ | ⟨rfl, -⟩⟩
    · exact (hck x).2 (Or.inl (hCl.1 k x hx1))
    · exact (hck x).2 (Or.inl hu)
    · exact (hck x).2 (Or.inl hnn)
  · intro k x hx
    rcases (hpf k x).1 hx with hx1 | ⟨rfl, rfl, -⟩ | ⟨rfl, rfl, -⟩
    · exact (hck x).2 (Or.inl (hCl.2 k x hx1))
    · exact (hck x).2 (Or.inr rfl)
    · exact (hck x).2 (Or.inr rfl)

/-- A whole inner-loop run preserves the structural invariants. -/
theorem innerLoop_inv (oracle : Commit → Commit → Option Commit) (nn : Commit) :
    ∀ nodes st work st' work', StInv st →
    (∀ u ∈ nodes, u ∈ st.children.keys) → nn ∈ st.children.keys →
    innerLoop oracle nn nodes st work = some (st', work') → StInv st' := by
  intro nodes
  induction nodes with
  | nil =>
    intro st work st' work' hInv _ _ h
    unfold innerLoop at h
    cases h
    exact hInv
  | cons u rest ih =>
    intro st work st' work' hInv hns hnn h
    unfold innerLoop at h
    rcases hstep : innerStep oracle nn u st work with _ | ⟨st1, work1⟩
    · rw [hstep] at h; cases h
    · rw [hstep] at h
      have hInv1 := innerStep_inv oracle nn u st work st1 work1 hInv
        (hns u (List.mem_cons_self u rest)) hnn hstep
      obtain ⟨b, -, hck, -, -, -, -, -, -⟩ :=
        innerStep_spec oracle nn u st work st1 work1 hInv.1.1 hInv.1.2 hstep
      exact ih st1 work1 st' work' hInv1
        (fun v hv => (hck v).2 (Or.inl (hns v (List.mem_cons_of_mem u hv))))
        ((hck nn).2 (Or.inl hnn)) h

/-! ## Commutativity and memoization of the oracle adapter -/

theorem chLt_asymm : ∀ a b, chLt a b = true → chLt b a = false := by
  intro a
  induction a with
  | nil =>
    intro b h
    cases b with
    | nil => cases h
    | cons y ys => rfl
  | cons x xs ih =>
    intro b h
    cases b with
    | nil => cases h
    | cons y ys =>
      unfold chLt at h ⊢
      by_cases h1 : x.toNat < y.toNat
      · rw [if_neg (Nat.lt_asymm h1), if_pos h1]
      · rw [if_neg h1] at h
        by_cases h2 : y.toNat < x.toNat
        · rw [if_pos h2] at h; cases h
        · rw [if_neg h2] at h
          rw [if_neg h2, if_neg h1]
          exact ih ys h

theorem chLt_conn : ∀ a b, chLt a b = false → chLt b a = false → a = b := by
  intro a
  induction a with
  | nil =>
    intro b h1 _
    cases b with
    | nil => rfl
    | cons y ys => cases h1
  | cons x xs ih =>
    intro b h1 h2
    cases b with
    | nil => cases h2
    | cons y ys =>
      unfold chLt at h1 h2
      by_cases hxy : x.toNat < y.toNat
      · rw [if_pos hxy] at h1; cases h1
      · by_cases hyx : y.toNat < x.toNat
        · rw [if_pos hyx] at h2; cases h2
        · rw [if_neg hxy, if_neg hyx] at h1
          have hval : x.toNat = y.toNat := by omega
          have hx : x = y := Char.ext (UInt32.toNat.inj hval)
          rw [if_neg hyx, if_neg hxy] at h2
          rw [hx, ih ys h1 h2]

theorem commitLt_asymm (a b : Commit) (h : commitLt a b = true) :
    commitLt b a = false := chLt_asymm a.data b.data h

theorem commitLt_conn (a b : Commit) (h1 : commitLt a b = false)
    (h2 : commitLt b a = false) : a = b := by
  have := chLt_conn a.data b.data h1 h2
  cases a; cases b
  exact congrArg String.mk this

/-- Pair canonicalization is symmetric in its arguments. -/
theorem canonPair_comm (a b : Commit) : canonPair a b = canonPair b a := by
  unfold canonPair
  by_cases h : commitLt a b
  · rw [if_pos h, if_neg (by rw [commitLt_asymm a b h]; exact Bool.false_ne_true)]
  · by_cases h' : commitLt b a
    · rw [if_neg h, if_pos h']
    · rw [if_neg h, if_neg h',
        commitLt_conn a b (Bool.not_eq_true _ ▸ h) (Bool.not_eq_true _ ▸ h')]

/-- The adapter is commutative: querying `(a, b)` and `(b, a)` from the same
state gives the same answer and the same successor state. -/
theorem mergeBase_comm (oracle : Commit → Commit → Option Commit) (st : BSt)
    (a b : Commit) : mergeBase oracle st a b = mergeBase oracle st b a := by
  unfold mergeBase
  rw [canonPair_comm]

/-- The adapter's bookkeeping invariant: the invocation trace has no
duplicate canonical pair, and every invoked pair is cached. -/
def MemoTrace (st : BSt) : Prop :=
  st.trace.Nodup ∧ ∀ p ∈ st.trace, ∃ c, memoLookup st.memo p = some c

theorem memoLookup_cons (e : (Commit × Commit) × Commit)
    (memo : List ((Commit × Commit) × Commit)) (p : Commit × Commit) :
    memoLookup (e :: memo) p = if e.1 = p then some e.2 else memoLookup memo p := by
  rcases e with ⟨q, v⟩
  rfl

theorem mergeBase_memoTrace (oracle : Commit → Commit → Option Commit)
    (st : BSt) (l r : Commit) (c : Commit) (st1 : BSt) (hMT : MemoTrace st)
    (h : mergeBase oracle st l r = some (c, st1)) : MemoTrace st1 := by
  simp only [mergeBase] at h
  rcases hm : memoLookup st.memo (canonPair l r) with _ | v
  · rw [hm] at h
    simp only at h
    rcases ho : oracle (canonPair l r).1 (canonPair l r).2 with _ | v'
    · rw [ho] at h; cases h
    · rw [ho] at h
      cases h
      constructor
      · show (st.trace ++ [canonPair l r]).Nodup
        rw [List.nodup_append]
        refine ⟨hMT.1, List.nodup_singleton _, ?_⟩
        intro p hp hq
        rw [List.mem_singleton] at hq
        subst hq
        obtain ⟨c', hc'⟩ := hMT.2 _ hp
        rw [hc'] at hm
        cases hm
      · intro p hp
        have hp2 : p ∈ st.trace ++ [canonPair l r] := hp
        show ∃ c', memoLookup ((canonPair l r, c) :: st.memo) p = some c'
        rw [memoLookup_cons]
        rcases List.mem_append.1 hp2 with hp' | hp'
        · obtain ⟨c', hc'⟩ := hMT.2 p hp'
          by_cases he : (canonPair l r, c).1 = p
          · exact ⟨c, by rw [if_pos he]⟩
          · exact ⟨c', by rw [if_neg he]; exact hc'⟩
        · rw [List.mem_singleton] at hp'
          subst hp'
          exact ⟨c, by rw [if_pos rfl]⟩
  · rw [hm] at h
    simp only [Option.some.injEq, Prod.mk.injEq] at h
    obtain ⟨h1, h2⟩ := h
    subst h2
    exact hMT

/-- Any sequence of adapter queries from a state with the bookkeeping
invariant keeps it — in particular the trace stays duplicate-free. -/
theorem runQueries_memoTrace (oracle : Commit → Commit → Option Commit) :
    ∀ qs st st', MemoTrace st → runQueries oracle qs st = some st' →
    MemoTrace st' := by
  intro qs
  induction qs with
  | nil =>
    intro st st' hMT h
    unfold runQueries at h
    cases h
    exact hMT
  | cons q qs ih =>
    intro st st' hMT h
    rcases q with ⟨a, b⟩
    unfold runQueries at h
    rcases hmb : mergeBase oracle st a b with _ | ⟨c, st1⟩
    · rw [hmb] at h; cases h
    · rw [hmb] at h
      exact ih st1 st' (mergeBase_memoTrace oracle st a b c st1 hMT hmb) h

theorem innerStep_memoTrace (oracle : Commit → Commit → Option Commit)
    (nn u : Commit) (st : BSt) (work : List Commit) (st' : BSt)
    (work' : List Commit) (hMT : MemoTrace st)
    (h : innerStep oracle nn u st work = some (st', work')) : MemoTrace st' := by
  unfold innerStep at h
  rcases hmb : mergeBase oracle st nn u with _ | ⟨b, st1⟩
  · rw [hmb] at h; cases h
  · rw [hmb] at h
    dsimp only at h
    rcases hreg : registerBase st1.children work b with ⟨ch2, w2⟩
    rw [hreg] at h
    simp only [Option.some.injEq, Prod.mk.injEq] at h
    obtain ⟨hst', -⟩ := h
    rw [← hst']
    exact mergeBase_memoTrace oracle st nn u b st1 hMT hmb

theorem innerLoop_memoTrace (oracle : Commit → Commit → Option Commit)
    (nn : Commit) : ∀ nodes st work st' work', MemoTrace st →
    innerLoop oracle nn nodes st work = some (st', work') → MemoTrace st' := by
  intro nodes
  induction nodes with
  | nil =>
    intro st work st' work' hMT h
    unfold innerLoop at h
    cases h
    exact hMT
  | cons u rest ih =>
    intro st work st' work' hMT h
    unfold innerLoop at h
    rcases hstep : innerStep oracle nn u st work with _ | ⟨st1, work1⟩
    · rw [hstep] at h; cases h
    · rw [hstep] at h
      exact ih st1 work1 st' work'
        (innerStep_memoTrace oracle nn u st work st1 work1 hMT hstep) h

theorem closureLoop_memoTrace (oracle : Commit → Commit → Option Commit) :
    ∀ f st work st', MemoTrace st →
    closureLoop oracle f st work = .done st' → MemoTrace st' := by
  intro f
  induction f with
  | zero =>
    intro st work st' hMT h
    cases work with
    | nil => cases h; exact hMT
    | cons n rest => cases h
  | succ f ih =>
    intro st work st' hMT h
    cases work with
    | nil => cases h; exact hMT
    | cons n rest =>
      unfold closureLoop at h
      rcases hil : innerLoop oracle n st.children.keys st rest with _ | ⟨st1, work1⟩
      · rw [hil] at h; cases h
      · rw [hil] at h
        exact ih st1 work1 st'
          (innerLoop_memoTrace oracle n st.children.keys st rest st1 work1 hMT hil) h

/-- Worklist entries stay keys of the descendant map. -/
theorem innerLoop_workKeys (oracle : Commit → Commit → Option Commit)
    (nn : Commit) : ∀ nodes st work st' work', OffSt st →
    (∀ w ∈ work, w ∈ st.children.keys) →
    innerLoop oracle nn nodes st work = some (st', work') →
    ∀ w ∈ work', w ∈ st'.children.keys := by
  intro nodes
  induction nodes with
  | nil =>
    intro st work st' work' _ hW h
    unfold innerLoop at h
    cases h
    exact hW
  | cons u rest ih =>
    intro st work st' work' hOff hW h
    unfold innerLoop at h
    rcases hstep : innerStep oracle nn u st work with _ | ⟨st1, work1⟩
    · rw [hstep] at h; cases h
    · rw [hstep] at h
      obtain ⟨b, -, hck, -, -, hOffC1, hOffP1, hwork, -⟩ :=
        innerStep_spec oracle nn u st work st1 work1 hOff.1 hOff.2 hstep
      refine ih st1 work1 st' work' ⟨hOffC1, hOffP1⟩ ?_ h
      intro w hw
      rcases hwork with ⟨-, rfl⟩ | ⟨-, rfl⟩
      · exact (hck w).2 (Or.inl (hW w hw))
      · rcases List.mem_append.1 hw with hw' | hw'
        · exact (hck w).2 (Or.inl (hW w hw'))
        · exact (hck w).2 (Or.inr (List.mem_singleton.1 hw'))

/-- Once the inner loop has processed at least one node, the popped node has
an ancestor-map entry. -/
theorem innerLoop_nn_parentsKey (oracle : Commit → Commit → Option Commit)
    (nn u : Commit) (rest : List Commit) :
    ∀ st work st' work', OffSt st →
    innerLoop oracle nn (u :: rest) st work = some (st', work') →
    nn ∈ st'.parents.keys := by
  intro st work st' work' hOff h
  unfold innerLoop at h
  rcases hstep : innerStep oracle nn u st work with _ | ⟨st1, work1⟩
  · rw [hstep] at h; cases h
  · rw [hstep] at h
    obtain ⟨b, -, -, -, hpk, hOffC1, hOffP1, -, -⟩ :=
      innerStep_spec oracle nn u st work st1 work1 hOff.1 hOff.2 hstep
    obtain ⟨-, -, -, -, hpk', -, -⟩ :=
      innerLoop_grow oracle nn rest st1 work1 st' work' ⟨hOffC1, hOffP1⟩ h
    exact hpk' nn ((hpk nn).2 (Or.inr (Or.inr rfl)))

/-- The inner loop establishes the connectedness disjunction between the
popped node and every node of the processed snapshot. -/
theorem innerLoop_connects (oracle : Commit → Commit → Option Commit)
    (nn : Commit) : ∀ nodes st work st' work', OffSt st →
    innerLoop oracle nn nodes st work = some (st', work') →
    ∀ u ∈ nodes, u ≠ nn → Connects st' u nn ∧ Connects st' nn u := by
  intro nodes
  induction nodes with
  | nil =>
    intro st work st' work' _ _ u hu
    cases hu
  | cons v rest ih =>
    intro st work st' work' hOff h u hu hne
    unfold innerLoop at h
    rcases hstep : innerStep oracle nn v st work with _ | ⟨st1, work1⟩
    · rw [hstep] at h; cases h
    · rw [hstep] at h
      obtain ⟨b, hcf, hck, hpf, hpk, hOffC1, hOffP1, -, -⟩ :=
        innerStep_spec oracle nn v st work st1 work1 hOff.1 hOff.2 hstep
      rcases List.mem_cons.1 hu with rfl | hu'
      · obtain ⟨-, hcg, hpg, -, -, -, -⟩ :=
          innerLoop_grow oracle nn rest st1 work1 st' work' ⟨hOffC1, hOffP1⟩ h
        constructor
        · by_cases hbu : b = u
          · refine Or.inr (hcg u ?_)
            refine (hcf u nn).2 (Or.inr ⟨hbu.symm, Or.inr ⟨rfl, ?_⟩⟩)
            rw [hbu]
            exact hne
          · refine Or.inl ?_
            have : b ∈ st'.parents.find u :=
              hpg u ((hpf u b).2 (Or.inr (Or.inl ⟨rfl, rfl, hbu⟩)))
            exact List.ne_nil_of_mem this
        · by_cases hbn : b = nn
          · refine Or.inr (hcg nn ?_)
            refine (hcf nn u).2 (Or.inr ⟨hbn.symm, Or.inl ⟨rfl, ?_⟩⟩)
            rw [hbn]
            exact fun hc => hne hc.symm
          · refine Or.inl ?_
            have : b ∈ st'.parents.find nn :=
              hpg nn ((hpf nn b).2 (Or.inr (Or.inr ⟨rfl, rfl, hbn⟩)))
            exact List.ne_nil_of_mem this
      · exact ih st1 work1 st' work' ⟨hOffC1, hOffP1⟩ h u hu' hne

/-- Worklist members are descendant-map keys. -/
def WorkKeys (st : BSt) (work : List Commit) : Prop :=
  ∀ w ∈ work, w ∈ st.children.keys

/-- Key balance: the ancestor map's keys are descendant-map keys, and each
descendant-map key is an ancestor-map key or still pending on the
worklist. -/
def KeysBal (st : BSt) (work : List Commit) : Prop :=
  (∀ k ∈ st.parents.keys, k ∈ st.children.keys) ∧
  (∀ k ∈ st.children.keys, k ∈ st.parents.keys ∨ k ∈ work)

/-- Every fully processed pair of distinct keys is connected. -/
def PairInv (st : BSt) (work : List Commit) : Prop :=
  ∀ u v, u ∈ st.children.keys → v ∈ st.children.keys →
    u ∉ work → v ∉ work → u ≠ v → Connects st u v

/-- The closure loop preserves the structural invariants to completion. -/
theorem closureLoop_stInv (oracle : Commit → Commit → Option Commit) :
    ∀ f st work st', StInv st → WorkKeys st work →
    closureLoop oracle f st work = .done st' → StInv st' := by
  intro f
  induction f with
  | zero =>
    intro st work st' hInv hW h
    cases work with
    | nil => cases h; exact hInv
    | cons n rest => cases h
  | succ f ih =>
    intro st work st' hInv hW h
    cases work with
    | nil => cases h; exact hInv
    | cons n rest =>
      unfold closureLoop at h
      rcases hil : innerLoop oracle n st.children.keys st rest with _ | ⟨st1, work1⟩
      · rw [hil] at h; cases h
      · rw [hil] at h
        have hInv1 : StInv st1 :=
          innerLoop_inv oracle n st.children.keys st rest st1 work1 hInv
            (fun u hu => hu) (hW n (List.mem_cons_self n rest)) hil
        have hW1 : WorkKeys st1 work1 :=
          innerLoop_workKeys oracle n st.children.keys st rest st1 work1 hInv.1
            (fun w hw => hW w (List.mem_cons_of_mem n hw)) hil
        exact ih st1 work1 st' hInv1 hW1 h

/-- Ancestor-map keys stay inside the descendant-map key set through the
inner loop. -/
theorem innerLoop_parentsKeysSub (oracle : Commit → Commit → Option Commit)
    (nn : Commit) : ∀ nodes st work st' work', OffSt st →
    (∀ x ∈ st.parents.keys, x ∈ st.children.keys) →
    (∀ u ∈ nodes, u ∈ st.children.keys) → nn ∈ st.children.keys →
    innerLoop oracle nn nodes st work = some (st', work') →
    ∀ x ∈ st'.parents.keys, x ∈ st'.children.keys := by
  intro nodes
  induction nodes with
  | nil =>
    intro st work st' work' _ hsub _ _ h
    unfold innerLoop at h
    cases h
    exact hsub
  | cons u rest ih =>
    intro st work st' work' hOff hsub hns hnn h
    unfold innerLoop at h
    rcases hstep : innerStep oracle nn u st work with _ | ⟨st1, work1⟩
    · rw [hstep] at h; cases h
    · rw [hstep] at h
      obtain ⟨b, -, hck, -, hpk, hOffC1, hOffP1, -, -⟩ :=
        innerStep_spec oracle nn u st work st1 work1 hOff.1 hOff.2 hstep
      refine ih st1 work1 st' work' ⟨hOffC1, hOffP1⟩ ?_ ?_ ?_ h
      · intro x hx
        rcases (hpk x).1 hx with h1 | h1 | h1
        · exact (hck x).2 (Or.inl (hsub x h1))
        · exact (hck x).2 (Or.inl (h1 ▸ hns u (List.mem_cons_self u rest)))
        · exact (hck x).2 (Or.inl (h1 ▸ hnn))
      · intro v hv
        exact (hck v).2 (Or.inl (hns v (List.mem_cons_of_mem u hv)))
      · exact (hck nn).2 (Or.inl hnn)

/-- The closure loop drains the worklist maintaining key balance: at
completion the two maps have the same key set. -/
theorem closureLoop_keysBal (oracle : Commit → Commit → Option Commit) :
    ∀ f st work st', OffSt st → StInv st → WorkKeys st work →
    KeysBal st work → closureLoop oracle f st work = .done st' →
    ∀ k, k ∈ st'.children.keys ↔ k ∈ st'.parents.keys := by
  intro f
  induction f with
  | zero =>
    intro st work st' hOff hInv hW hB h k
    cases work with
    | nil =>
      cases h
      constructor
      · intro hk
        rcases hB.2 k hk with hk' | hk'
        · exact hk'
        · cases hk'
      · exact hB.1 k
    | cons n rest => cases h
  | succ f ih =>
    intro st work st' hOff hInv hW hB h k
    cases work with
    | nil =>
      cases h
      constructor
      · intro hk
        rcases hB.2 k hk with hk' | hk'
        · exact hk'
        · cases hk'
      · exact hB.1 k
    | cons n rest =>
      unfold closureLoop at h
      rcases hil : innerLoop oracle n st.children.keys st rest with _ | ⟨st1, work1⟩
      · rw [hil] at h; cases h
      · rw [hil] at h
        have hn : n ∈ st.children.keys := hW n (List.mem_cons_self n rest)
        have hInv1 : StInv st1 :=
          innerLoop_inv oracle n st.children.keys st rest st1 work1 hInv
            (fun u hu => hu) hn hil
        have hW1 : WorkKeys st1 work1 :=
          innerLoop_workKeys oracle n st.children.keys st rest st1 work1 hInv.1
            (fun w hw => hW w (List.mem_cons_of_mem n hw)) hil
        obtain ⟨hOff1, hcg, hpg, hck, hpk, hwg, hnew⟩ :=
          innerLoop_grow oracle n st.children.keys st rest st1 work1 hOff hil
        have hnpk : n ∈ st1.parents.keys := by
          cases hks : st.children.keys with
          | nil => rw [hks] at hn; cases hn
          | cons u us =>
            rw [hks] at hil
            exact innerLoop_nn_parentsKey oracle n u us st rest st1 work1 hOff hil
        have hB1 : KeysBal st1 work1 := by
          constructor
          · exact innerLoop_parentsKeysSub oracle n st.children.keys st rest st1
              work1 hOff hB.1 (fun u hu => hu) hn hil
          · intro x hx
            rcases hnew x hx with h1 | h1
            · rcases hB.2 x h1 with h2 | h2
              · exact Or.inl (hpk x h2)
              · rcases List.mem_cons.1 h2 with rfl | h3
                · exact Or.inl hnpk
                · exact Or.inr (hwg x h3)
            · exact Or.inr h1
        exact ih st1 work1 st' hOff1 hInv1 hW1 hB1 h k

/-- Growth preserves connectedness. -/
theorem connects_mono (st st1 : BSt)
    (hpg : ∀ k, st.parents.find k ⊆ st1.parents.find k)
    (hcg : ∀ k, st.children.find k ⊆ st1.children.find k)
    (u v : Commit) (h : Connects st u v) : Connects st1 u v := by
  rcases h with h | h
  · obtain ⟨x, hx⟩ := List.exists_mem_of_ne_nil _ h
    exact Or.inl (List.ne_nil_of_mem (hpg u hx))
  · exact Or.inr (hcg u h)

/-- At completion of the closure loop, every two distinct keys are
connected: each has a recorded parent or lists the other as a child. -/
theorem closureLoop_pair (oracle : Commit → Commit → Option Commit) :
    ∀ f st work st', OffSt st → PairInv st work → WorkKeys st work →
    closureLoop oracle f st work = .done st' →
    ∀ u v, u ∈ st'.children.keys → v ∈ st'.children.keys → u ≠ v →
    Connects st' u v := by
  intro f
  induction f with
  | zero =>
    intro st work st' hOff hP hW h u v hu hv hne
    cases work with
    | nil =>
      cases h
      exact hP u v hu hv (List.not_mem_nil u) (List.not_mem_nil v) hne
    | cons n rest => cases h
  | succ f ih =>
    intro st work st' hOff hP hW h u v hu hv hne
    cases work with
    | nil =>
      cases h
      exact hP u v hu hv (List.not_mem_nil u) (List.not_mem_nil v) hne
    | cons n rest =>
      unfold closureLoop at h
      rcases hil : innerLoop oracle n st.children.keys st rest with _ | ⟨st1, work1⟩
      · rw [hil] at h; cases h
      · rw [hil] at h
        obtain ⟨hOff1, hcg, hpg, hck, hpk, hwg, hnew⟩ :=
          innerLoop_grow oracle n st.children.keys st rest st1 work1 hOff hil
        have hW1 : WorkKeys st1 work1 :=
          innerLoop_workKeys oracle n st.children.keys st rest st1 work1 hOff
            (fun w hw => hW w (List.mem_cons_of_mem n hw)) hil
        have hP1 : PairInv st1 work1 := by
          intro a c ha hc hna hnc hane
          have haK : a ∈ st.children.keys :=
            (hnew a ha).resolve_right hna
          have hcK : c ∈ st.children.keys :=
            (hnew c hc).resolve_right hnc
          have harest : a ∉ rest := fun hr => hna (hwg a hr)
          have hcrest : c ∉ rest := fun hr => hnc (hwg c hr)
          by_cases han : a = n
          · subst han
            exact (innerLoop_connects oracle a st.children.keys st rest st1 work1
              hOff hil c hcK (fun hcn => hane hcn.symm)).2
          · by_cases hcn : c = n
            · subst hcn
              exact (innerLoop_connects oracle c st.children.keys st rest st1 work1
                hOff hil a haK hane).1
            · refine connects_mono st st1 hpg hcg a c (hP a c haK hcK ?_ ?_ hane)
              · intro hmem
                rcases List.mem_cons.1 hmem with h1 | h1
                · exact han h1
                · exact harest h1
              · intro hmem
                rcases List.mem_cons.1 hmem with h1 | h1
                · exact hcn h1
                · exact hcrest h1
        exact ih st1 work1 st' hOff1 hP1 hW1 h u v hu hv hne

/-! ## The initial state and the assembled closure facts -/

theorem foldl_insert_keys : ∀ (tips : List Commit) (m : GMap) (x : Commit),
    x ∈ (tips.foldl (fun m k => m.insert k []) m).keys ↔
      x ∈ m.keys ∨ x ∈ tips := by
  intro tips
  induction tips with
  | nil =>
    intro m x
    simp [List.foldl_nil]
  | cons t ts ih =>
    intro m x
    rw [List.foldl_cons, ih, mem_keys_insert]
    simp only [List.mem_cons]
    tauto

theorem foldl_insert_find : ∀ (tips : List Commit) (m : GMap),
    (∀ k, m.find k = []) → ∀ k, (tips.foldl (fun m k => m.insert k []) m).find k = [] := by
  intro tips
  induction tips with
  | nil =>
    intro m hm k
    exact hm k
  | cons t ts ih =>
    intro m hm k
    rw [List.foldl_cons]
    refine ih _ ?_ k
    intro k'
    rw [GMap.find_insert]
    by_cases h : k' = t
    · rw [if_pos h]
    · rw [if_neg h]; exact hm k'

theorem initMaps_keys_mem (tips : List Commit) (x : Commit) :
    x ∈ (initMaps tips).keys ↔ x ∈ tips := by
  unfold initMaps
  rw [foldl_insert_keys]
  constructor
  · rintro (h | h)
    · cases h
    · exact h
  · exact Or.inr

theorem initMaps_find (tips : List Commit) (k : Commit) :
    (initMaps tips).find k = [] :=
  foldl_insert_find tips GMap.empty (fun _ => rfl) k

theorem initSt_stInv (tips : List Commit) : StInv (initSt tips) := by
  have hfc : ∀ k, (initSt tips).children.find k = [] := fun k => initMaps_find tips k
  have hfp : ∀ k, (initSt tips).parents.find k = [] := fun k => initMaps_find tips k
  refine ⟨⟨fun k _ => hfc k, fun k _ => hfp k⟩, ⟨?_, ?_⟩, ⟨?_, ?_⟩, ⟨?_, ?_⟩⟩
  · intro a b hab; rw [hfc] at hab; cases hab
  · intro a b hab; rw [hfp] at hab; cases hab
  · intro a hab; rw [hfc] at hab; cases hab
  · intro a hab; rw [hfp] at hab; cases hab
  · intro a b hab; rw [hfc] at hab; cases hab
  · intro a b hab; rw [hfp] at hab; cases hab

theorem initSt_memoTrace (tips : List Commit) : MemoTrace (initSt tips) :=
  ⟨List.nodup_nil, fun p hp => absurd hp (List.not_mem_nil p)⟩

/-- Everything the claims need about a completed closure construction. -/
theorem closure_facts (oracle : Commit → Commit → Option Commit) (fuel : Nat)
    (tips : List Commit) (st : BSt)
    (h : closureLoop oracle fuel (initSt tips) tips = .done st) :
    StInv st ∧ (∀ k, k ∈ st.children.keys ↔ k ∈ st.parents.keys) ∧
    (∀ u v, u ∈ st.children.keys → v ∈ st.children.keys → u ≠ v →
      Connects st u v) ∧
    MemoTrace st := by
  have hW : WorkKeys (initSt tips) tips := by
    intro w hw
    exact (initMaps_keys_mem tips w).2 hw
  have hInv := initSt_stInv tips
  refine ⟨closureLoop_stInv oracle fuel _ tips st hInv hW h, ?_, ?_, ?_⟩
  · refine closureLoop_keysBal oracle fuel _ tips st hInv.1 hInv hW ⟨?_, ?_⟩ h
    · intro k hk
      rw [show (initSt tips).parents = initMaps tips from rfl] at hk
      exact (initMaps_keys_mem tips k).2 ((initMaps_keys_mem tips k).1 hk)
    · intro k hk
      exact Or.inr ((initMaps_keys_mem tips k).1 hk)
  · refine closureLoop_pair oracle fuel _ tips st hInv.1 ?_ hW h
    intro u v hu _ hnu _ _
    exact absurd ((initMaps_keys_mem tips u).1 hu) hnu
  · exact closureLoop_memoTrace oracle fuel _ tips st (initSt_memoTrace tips) h

/-- A parentless node of a completed closure lists every other key among
its direct children. -/
theorem closure_root_all (oracle : Commit → Commit → Option Commit)
    (fuel : Nat) (tips : List Commit) (st : BSt) (root : Commit)
    (h : closureLoop oracle fuel (initSt tips) tips = .done st)
    (hroot : root ∈ st.children.keys) (hempty : st.parents.find root = []) :
    ∀ v ∈ st.children.keys, v ≠ root → v ∈ st.children.find root := by
  intro v hv hne
  obtain ⟨-, -, hpair, -⟩ := closure_facts oracle fuel tips st h
  rcases hpair root v hroot hv (fun hc => hne hc.symm) with h1 | h1
  · exact absurd hempty h1
  · exact h1

theorem findRoot_some (m : GMap) (root : Commit) (h : findRoot m = some root) :
    root ∈ m.keys ∧ m.find root = [] := by
  unfold findRoot at h
  refine ⟨List.mem_of_find?_eq_some h, ?_⟩
  have := List.find?_some h
  rwa [List.isEmpty_iff] at this

theorem findRoot_mem_some (m : GMap) (root : Commit) (hk : root ∈ m.keys)
    (he : m.find root = []) : ∃ r, findRoot m = some r := by
  unfold findRoot
  rcases hf : m.keys.find? (fun k => (m.find k).isEmpty) with _ | r
  · rw [List.find?_eq_none] at hf
    exact absurd (by rw [he]; rfl) (hf root hk)
  · exact ⟨r, rfl⟩

/-! ## Concrete fixture used by the witnesses -/

/-- A small concrete oracle: tips `aaaaaaaaa` and `bbbbbbbbb` meet at
`ccccccccc`, which is its own ancestor with everything. -/
def wOracle : Commit → Commit → Option Commit := fun a b =>
  if a = b then some a
  else if a = "bbbbbbbbb" ∧ b = "aaaaaaaaa" then some "ccccccccc"
  else if a = "ccccccccc" then some "ccccccccc"
  else none

def wTips : List Commit := ["aaaaaaaaa", "bbbbbbbbb"]

/-- The state the closure builder reaches on the fixture (extracted from the
computation itself, so `closureLoop wOracle 9 (initSt wTips) wTips = .done wSt`
holds by `rfl`). -/
def wSt : BSt :=
  match closureLoop wOracle 9 (initSt wTips) wTips with
  | .done st => st
  | _ => ⟨GMap.empty, GMap.empty, [], []⟩

example : closureLoop wOracle 9 (initSt wTips) wTips = .done wSt := rfl

example : wSt.children.obs =
    [("aaaaaaaaa", []), ("bbbbbbbbb", []), ("ccccccccc", ["bbbbbbbbb", "aaaaaaaaa"])] := by
  decide

/-- A concrete map with one transitively redundant edge
(`a → {b, c}`, `b → {c}`). -/
def wG : GMap :=
  ⟨["aaaaaaaaa", "bbbbbbbbb", "ccccccccc"],
   fun x =>
     if x = "aaaaaaaaa" then ["bbbbbbbbb", "ccccccccc"]
     else if x = "bbbbbbbbb" then ["ccccccccc"]
     else []⟩

/-! ## The claims -/

/-- C2: during descendant-side reduction, a visited node keeps exactly the
snapshot children that no other sibling of the snapshot currently lists
among its own direct children, its entry is replaced by that kept subset,
and the pass then recurses into every child of the original snapshot
(including the just-removed ones) before the remaining pending visits. -/
theorem prune_children_step_spec (f : Nat) (m : GMap) (parent : Commit)
    (rest : List Commit) :
    pruneWork (f + 1) m (parent :: rest) =
      pruneWork f
        (m.insert parent ((m.find parent).filter (keep m (m.find parent))))
        (m.find parent ++ rest) ∧
    ∀ c, c ∈ (m.find parent).filter (keep m (m.find parent)) ↔
      c ∈ m.find parent ∧
        ∀ c2 ∈ m.find parent, c2 ≠ c → c ∉ m.find c2 := by
  constructor
  · exact pruneWork_cons f m parent rest
  · intro c
    rw [List.mem_filter]
    constructor
    · rintro ⟨h1, h2⟩
      exact ⟨h1, (keep_iff m _ c).1 h2⟩
    · rintro ⟨h1, h2⟩
      exact ⟨h1, (keep_iff m _ c).2 h2⟩

/-- Witness for C2 on a concrete redundant triangle: `a → {b, c}` with
`b → {c}` keeps only `b`, and the recursion worklist is the full snapshot. -/
theorem prune_children_step_spec_witness :
    ("ccccccccc" ∈ (wG.find "aaaaaaaaa").filter
        (keep wG (wG.find "aaaaaaaaa")) ↔
      "ccccccccc" ∈ wG.find "aaaaaaaaa" ∧
        ∀ c2 ∈ wG.find "aaaaaaaaa", c2 ≠ "ccccccccc" →
          "ccccccccc" ∉ wG.find c2) ∧
    pruneWork 6 wG ["aaaaaaaaa"] =
      pruneWork 5
        (wG.insert "aaaaaaaaa"
          ((wG.find "aaaaaaaaa").filter (keep wG (wG.find "aaaaaaaaa"))))
        (wG.find "aaaaaaaaa" ++ []) :=
  ⟨(prune_children_step_spec 5 wG "aaaaaaaaa" []).2 "ccccccccc",
   (prune_children_step_spec 5 wG "aaaaaaaaa" []).1⟩

/-- C4: after closure construction (before reduction) the two adjacency
maps are symmetric: every recorded child edge has the matching parent edge
and conversely. -/
theorem closure_map_symmetry (oracle : Commit → Commit → Option Commit)
    (fuel : Nat) (tips : List Commit) (st : BSt)
    (h : closureLoop oracle fuel (initSt tips) tips = .done st) :
    (∀ base child, child ∈ st.children.find base →
      base ∈ st.parents.find child) ∧
    (∀ node parent, parent ∈ st.parents.find node →
      node ∈ st.children.find parent) :=
  (closure_facts oracle fuel tips st h).1.2.1

/-- Witness for C4 on the fixture run. -/
theorem closure_map_symmetry_witness :
    "ccccccccc" ∈ wSt.parents.find "aaaaaaaaa" ∧
    "aaaaaaaaa" ∈ wSt.children.find "ccccccccc" :=
  ⟨(closure_map_symmetry wOracle 9 wTips wSt rfl).1 "ccccccccc" "aaaaaaaaa"
      (by decide),
   (closure_map_symmetry wOracle 9 wTips wSt rfl).2 "aaaaaaaaa" "ccccccccc"
      (by decide)⟩

/-- C5: no node is ever its own child or its own parent — after closure
construction, and preserved by every (partial or complete) pruning pass of
the reducer over either map. -/
theorem closure_no_self_edges (oracle : Commit → Commit → Option Commit)
    (fuel : Nat) (tips : List Commit) (st : BSt)
    (h : closureLoop oracle fuel (initSt tips) tips = .done st) :
    NoSelf st.children ∧ NoSelf st.parents ∧
    (∀ f ws m', pruneWork f st.children ws = some m' → NoSelf m') ∧
    (∀ f ws m', pruneWork f st.parents ws = some m' → NoSelf m') := by
  obtain ⟨hInv, -, -, -⟩ := closure_facts oracle fuel tips st h
  exact ⟨hInv.2.2.1.1, hInv.2.2.1.2,
    fun f ws m' hp => pruneWork_noSelf f st.children ws m' hInv.2.2.1.1 hp,
    fun f ws m' hp => pruneWork_noSelf f st.parents ws m' hInv.2.2.1.2 hp⟩

/-- Witness for C5 on the fixture run. -/
theorem closure_no_self_edges_witness :
    "ccccccccc" ∉ wSt.children.find "ccccccccc" :=
  (closure_no_self_edges wOracle 9 wTips wSt rfl).1 "ccccccccc"

/-- C6: after closure construction completes, the two adjacency maps have
equal key sets. -/
theorem closure_keys_equal (oracle : Commit → Commit → Option Commit)
    (fuel : Nat) (tips : List Commit) (st : BSt)
    (h : closureLoop oracle fuel (initSt tips) tips = .done st) :
    ∀ k, k ∈ st.children.keys ↔ k ∈ st.parents.keys :=
  (closure_facts oracle fuel tips st h).2.1

/-- Witness for C6 on the fixture run. -/
theorem closure_keys_equal_witness : "ccccccccc" ∈ wSt.parents.keys :=
  (closure_keys_equal wOracle 9 wTips wSt rfl "ccccccccc").1 (by decide)

/-- C9: if an oracle query fails during closure construction, the run
aborts with the propagated oracle error and prints nothing at all. -/
theorem oracle_failure_aborts (oracle : Commit → Commit → Option Commit)
    (idToBranches : List (Commit × List String)) (fuel : Nat)
    (h : closureLoop oracle fuel (initSt (idToBranches.map Prod.fst))
      (idToBranches.map Prod.fst) = .fail) :
    runModel oracle idToBranches fuel = ⟨[], .err .oracleFail⟩ := by
  simp only [runModel]
  rw [h]

/-- Witness for C9: an always-failing oracle aborts the run with no
output. -/
theorem oracle_failure_aborts_witness :
    runModel (fun _ _ => none) [("aaaaaaaaa", ["main"])] 3 =
      ⟨[], .err .oracleFail⟩ :=
  oracle_failure_aborts (fun _ _ => none) [("aaaaaaaaa", ["main"])] 3 rfl

/-- C3: the oracle adapter is commutative — `merge_base(a, b)` and
`merge_base(b, a)` agree in result and state — and across a whole run, for
any sequence of adapter queries (and in particular for the closure
builder's own run), the underlying external oracle is invoked at most once
per canonical pair: the invocation trace has no duplicates. -/
theorem merge_base_commutative_memoized (oracle : Commit → Commit → Option Commit) :
    (∀ st a b, mergeBase oracle st a b = mergeBase oracle st b a) ∧
    (∀ qs cm pm st', runQueries oracle qs ⟨cm, pm, [], []⟩ = some st' →
      st'.trace.Nodup) ∧
    (∀ fuel tips st', closureLoop oracle fuel (initSt tips) tips = .done st' →
      st'.trace.Nodup) := by
  refine ⟨fun st a b => mergeBase_comm oracle st a b, ?_, ?_⟩
  · intro qs cm pm st' h
    exact (runQueries_memoTrace oracle qs ⟨cm, pm, [], []⟩ st'
      ⟨List.nodup_nil, fun p hp => absurd hp (List.not_mem_nil p)⟩ h).1
  · intro fuel tips st' h
    exact (closureLoop_memoTrace oracle fuel (initSt tips) tips st'
      (initSt_memoTrace tips) h).1

/-- The state after querying the fixture pair repeatedly in both orders
(extracted from the computation, so membership facts hold by `rfl`). -/
def wQSt : BSt :=
  match runQueries wOracle
      [("aaaaaaaaa", "bbbbbbbbb"), ("bbbbbbbbb", "aaaaaaaaa"),
       ("aaaaaaaaa", "bbbbbbbbb")] ⟨GMap.empty, GMap.empty, [], []⟩ with
  | some st => st
  | none => ⟨GMap.empty, GMap.empty, [], []⟩

/-- Witness for C3: commutativity on a concrete pair, duplicate queries in
both orders invoke the oracle once, and the fixture run's trace is
duplicate-free. -/
theorem merge_base_commutative_memoized_witness :
    mergeBase wOracle (initSt wTips) "aaaaaaaaa" "bbbbbbbbb" =
      mergeBase wOracle (initSt wTips) "bbbbbbbbb" "aaaaaaaaa" ∧
    wQSt.trace.Nodup ∧ wSt.trace.Nodup :=
  ⟨(merge_base_commutative_memoized wOracle).1 (initSt wTips)
      "aaaaaaaaa" "bbbbbbbbb",
   (merge_base_commutative_memoized wOracle).2.1
      [("aaaaaaaaa", "bbbbbbbbb"), ("bbbbbbbbb", "aaaaaaaaa"),
       ("aaaaaaaaa", "bbbbbbbbb")] GMap.empty GMap.empty wQSt rfl,
   (merge_base_commutative_memoized wOracle).2.2 9 wTips wSt rfl⟩

/-! ## Termination of the closure worklist loop (C8) -/

/-- Every cached merge-base answer is already a descendant-map key. -/
def MemoKeys (st : BSt) : Prop :=
  ∀ p c, memoLookup st.memo p = some c → c ∈ st.children.keys

/-- All descendant-map keys lie in the finite universe `S`. -/
def SBound (S : List Commit) (st : BSt) : Prop :=
  ∀ k ∈ st.children.keys, k ∈ S

/-- Number of universe elements not yet discovered as keys. -/
def cnt (S : List Commit) (st : BSt) : Nat :=
  (S.filter fun s => decide (s ∉ st.children.keys)).length

theorem filter_length_le (p q : Commit → Bool)
    (hpq : ∀ x, q x = true → p x = true) :
    ∀ S : List Commit, (S.filter q).length ≤ (S.filter p).length := by
  intro S
  induction S with
  | nil => exact Nat.le_refl 0
  | cons x xs ih =>
    by_cases hq : q x = true
    · rw [List.filter_cons_of_pos hq, List.filter_cons_of_pos (hpq x hq)]
      exact Nat.succ_le_succ ih
    · rw [List.filter_cons_of_neg (by simpa using hq)]
      by_cases hp : p x = true
      · rw [List.filter_cons_of_pos hp]
        exact Nat.le_succ_of_le ih
      · rw [List.filter_cons_of_neg (by simpa using hp)]
        exact ih

theorem filter_length_lt (p q : Commit → Bool)
    (hpq : ∀ x, q x = true → p x = true) :
    ∀ (S : List Commit) (b : Commit), b ∈ S → p b = true → q b = false →
    (S.filter q).length < (S.filter p).length := by
  intro S
  induction S with
  | nil =>
    intro b hb
    cases hb
  | cons x xs ih =>
    intro b hb hpb hqb
    rcases List.mem_cons.1 hb with rfl | hb'
    · rw [List.filter_cons_of_pos hpb, List.filter_cons_of_neg (by rw [hqb]; simp)]
      exact Nat.lt_succ_of_le (filter_length_le p q hpq xs)
    · by_cases hq : q x = true
      · rw [List.filter_cons_of_pos hq, List.filter_cons_of_pos (hpq x hq)]
        exact Nat.succ_lt_succ (ih b hb' hpb hqb)
      · rw [List.filter_cons_of_neg (by simpa using hq)]
        by_cases hp : p x = true
        · rw [List.filter_cons_of_pos hp]
          exact Nat.lt_succ_of_lt (ih b hb' hpb hqb)
        · rw [List.filter_cons_of_neg (by simpa using hp)]
          exact ih b hb' hpb hqb

/-- Effect of one inner-loop iteration on the termination bookkeeping: the
measure `|worklist| + |undiscovered universe|` does not grow. -/
theorem innerStep_measure (oracle : Commit → Commit → Option Commit)
    (S : List Commit) (nn u : Commit) (st : BSt) (work : List Commit)
    (st' : BSt) (work' : List Commit) (hOff : OffSt st) (hMK : MemoKeys st)
    (hSB : SBound S st) (hnn : nn ∈ S) (hu : u ∈ S)
    (hS : ∀ a b c, a ∈ S → b ∈ S → oracle a b = some c → c ∈ S)
    (h : innerStep oracle nn u st work = some (st', work')) :
    MemoKeys st' ∧ SBound S st' ∧
    work'.length + cnt S st' ≤ work.length + cnt S st := by
  obtain ⟨b, -, hck, -, -, -, -, hwork, hmemo⟩ :=
    innerStep_spec oracle nn u st work st' work' hOff.1 hOff.2 h
  have hbS : b ∈ S := by
    rcases hmemo with ⟨-, hhit⟩ | ⟨-, -, hmiss⟩
    · exact hSB b (hMK _ b hhit)
    · rcases canonPair_cases nn u with hc | hc
      · rw [hc] at hmiss
        exact hS u nn b hu hnn hmiss
      · rw [hc] at hmiss
        exact hS nn u b hnn hu hmiss
  refine ⟨?_, ?_, ?_⟩
  · intro p c hp
    rcases hmemo with ⟨hm, -⟩ | ⟨hm, -, -⟩
    · rw [hm] at hp
      exact (hck c).2 (Or.inl (hMK p c hp))
    · rw [hm, memoLookup_cons] at hp
      by_cases he : (canonPair nn u, b).1 = p
      · rw [if_pos he] at hp
        cases hp
        exact (hck b).2 (Or.inr rfl)
      · rw [if_neg he] at hp
        exact (hck c).2 (Or.inl (hMK p c hp))
  · intro k hk
    rcases (hck k).1 hk with h1 | rfl
    · exact hSB k h1
    · exact hbS
  · rcases hwork with ⟨hbK, rfl⟩ | ⟨hbK, rfl⟩
    · have : cnt S st' = cnt S st := by
        unfold cnt
        congr 1
        refine List.filter_congr ?_
        intro x _
        refine decide_eq_decide.2 ?_
        constructor
        · intro hx hx2
          exact hx ((hck x).2 (Or.inl hx2))
        · intro hx hx2
          rcases (hck x).1 hx2 with h1 | rfl
          · exact hx h1
          · exact hx hbK
      rw [this]
    · rw [List.length_append, List.length_singleton]
      have hlt : cnt S st' < cnt S st := by
        unfold cnt
        refine filter_length_lt _ _ ?_ S b hbS ?_ ?_
        · intro x hx
          rw [decide_eq_true_eq] at hx
          refine decide_eq_true ?_
          intro hmem
          exact hx ((hck x).2 (Or.inl hmem))
        · exact decide_eq_true hbK
        · exact decide_eq_false fun hmem => hmem ((hck b).2 (Or.inr rfl))
      omega

/-- The measure never grows over a whole inner-loop run. -/
theorem innerLoop_measure (oracle : Commit → Commit → Option Commit)
    (S : List Commit) (nn : Commit) :
    ∀ nodes st work st' work', OffSt st → MemoKeys st → SBound S st →
    nn ∈ S → (∀ u ∈ nodes, u ∈ S) →
    (∀ a b c, a ∈ S → b ∈ S → oracle a b = some c → c ∈ S) →
    innerLoop oracle nn nodes st work = some (st', work') →
    MemoKeys st' ∧ SBound S st' ∧
    work'.length + cnt S st' ≤ work.length + cnt S st := by
  intro nodes
  induction nodes with
  | nil =>
    intro st work st' work' _ hMK hSB _ _ _ h
    unfold innerLoop at h
    cases h
    exact ⟨hMK, hSB, Nat.le_refl _⟩
  | cons u rest ih =>
    intro st work st' work' hOff hMK hSB hnn hns hS h
    unfold innerLoop at h
    rcases hstep : innerStep oracle nn u st work with _ | ⟨st1, work1⟩
    · rw [hstep] at h; cases h
    · rw [hstep] at h
      obtain ⟨b, -, -, -, -, hOffC1, hOffP1, -, -⟩ :=
        innerStep_spec oracle nn u st work st1 work1 hOff.1 hOff.2 hstep
      obtain ⟨hMK1, hSB1, hm1⟩ :=
        innerStep_measure oracle S nn u st work st1 work1 hOff hMK hSB hnn
          (hns u (List.mem_cons_self u rest)) hS hstep
      obtain ⟨hMK', hSB', hm'⟩ :=
        ih st1 work1 st' work' ⟨hOffC1, hOffP1⟩ hMK1 hSB1 hnn
          (fun v hv => hns v (List.mem_cons_of_mem u hv)) hS h
      exact ⟨hMK', hSB', Nat.le_trans hm' hm1⟩

/-- The closure loop cannot exhaust fuel at least equal to the measure. -/
theorem closureLoop_term (oracle : Commit → Commit → Option Commit)
    (S : List Commit) : ∀ f st work, OffSt st → MemoKeys st → SBound S st →
    WorkKeys st work →
    (∀ a b c, a ∈ S → b ∈ S → oracle a b = some c → c ∈ S) →
    work.length + cnt S st ≤ f →
    closureLoop oracle f st work ≠ .out := by
  intro f
  induction f with
  | zero =>
    intro st work hOff hMK hSB hW hS hle
    cases work with
    | nil => exact fun hc => CRes.noConfusion hc
    | cons n rest =>
      rw [List.length_cons] at hle
      omega
  | succ f ih =>
    intro st work hOff hMK hSB hW hS hle
    cases work with
    | nil => exact fun hc => CRes.noConfusion hc
    | cons n rest =>
      show (match innerLoop oracle n st.children.keys st rest with
        | none => CRes.fail
        | some (st', work') => closureLoop oracle f st' work') ≠ CRes.out
      rcases hil : innerLoop oracle n st.children.keys st rest with _ | ⟨st1, work1⟩
      · exact fun hc => CRes.noConfusion hc
      · obtain ⟨hOff1, -, -, -, -, -, -⟩ :=
          innerLoop_grow oracle n st.children.keys st rest st1 work1 hOff hil
        have hW1 : WorkKeys st1 work1 :=
          innerLoop_workKeys oracle n st.children.keys st rest st1 work1 hOff
            (fun w hw => hW w (List.mem_cons_of_mem n hw)) hil
        obtain ⟨hMK1, hSB1, hm1⟩ :=
          innerLoop_measure oracle S n st.children.keys st rest st1 work1 hOff
            hMK hSB (hSB n (hW n (List.mem_cons_self n rest)))
            (fun v hv => hSB v hv) hS hil
        refine ih st1 work1 hOff1 hMK1 hSB1 hW1 hS ?_
        rw [List.length_cons] at hle
        omega

/-- Keys stay inside the universe `S` to completion. -/
theorem closureLoop_sbound (oracle : Commit → Commit → Option Commit)
    (S : List Commit) : ∀ f st work st', OffSt st → MemoKeys st →
    SBound S st → WorkKeys st work →
    (∀ a b c, a ∈ S → b ∈ S → oracle a b = some c → c ∈ S) →
    closureLoop oracle f st work = .done st' → SBound S st' := by
  intro f
  induction f with
  | zero =>
    intro st work st' _ _ hSB _ _ h
    cases work with
    | nil => cases h; exact hSB
    | cons n rest => cases h
  | succ f ih =>
    intro st work st' hOff hMK hSB hW hS h
    cases work with
    | nil => cases h; exact hSB
    | cons n rest =>
      unfold closureLoop at h
      rcases hil : innerLoop oracle n st.children.keys st rest with _ | ⟨st1, work1⟩
      · rw [hil] at h; cases h
      · rw [hil] at h
        obtain ⟨hOff1, -, -, -, -, -, -⟩ :=
          innerLoop_grow oracle n st.children.keys st rest st1 work1 hOff hil
        have hW1 : WorkKeys st1 work1 :=
          innerLoop_workKeys oracle n st.children.keys st rest st1 work1 hOff
            (fun w hw => hW w (List.mem_cons_of_mem n hw)) hil
        obtain ⟨hMK1, hSB1, -⟩ :=
          innerLoop_measure oracle S n st.children.keys st rest st1 work1 hOff
            hMK hSB (hSB n (hW n (List.mem_cons_self n rest)))
            (fun v hv => hSB v hv) hS hil
        exact ih st1 work1 st' hOff1 hMK1 hSB1 hW1 hS h

/-- C8: when the oracle's answers over a finite universe `S` containing the
tips stay inside `S`, the worklist loop terminates within `|tips| + |S|`
iterations (each iteration pops one entry, and pushes only nodes that were
not yet keys — bounded by `S`); moreover every key ever created lies in
`S`. -/
theorem closure_worklist_terminates (oracle : Commit → Commit → Option Commit)
    (tips S : List Commit) (hT : ∀ t ∈ tips, t ∈ S)
    (hS : ∀ a b c, a ∈ S → b ∈ S → oracle a b = some c → c ∈ S) :
    closureLoop oracle (tips.length + S.length) (initSt tips) tips ≠ .out ∧
    (∀ st', closureLoop oracle (tips.length + S.length) (initSt tips) tips =
      .done st' → ∀ k ∈ st'.children.keys, k ∈ S) := by
  have hOff : OffSt (initSt tips) := (initSt_stInv tips).1
  have hMK : MemoKeys (initSt tips) := by
    intro p c hp
    cases hp
  have hSB : SBound S (initSt tips) := by
    intro k hk
    exact hT k ((initMaps_keys_mem tips k).1 hk)
  have hW : WorkKeys (initSt tips) tips :=
    fun w hw => (initMaps_keys_mem tips w).2 hw
  have hle : tips.length + cnt S (initSt tips) ≤ tips.length + S.length := by
    have := List.length_filter_le
      (fun s => decide (s ∉ (initSt tips).children.keys)) S
    unfold cnt
    omega
  constructor
  · exact closureLoop_term oracle S (tips.length + S.length) (initSt tips)
      tips hOff hMK hSB hW hS hle
  · intro st' hdone k hk
    exact closureLoop_sbound oracle S (tips.length + S.length) (initSt tips)
      tips st' hOff hMK hSB hW hS hdone k hk

/-- Finite universe for the fixture oracle. -/
def wUniv : List Commit := ["aaaaaaaaa", "bbbbbbbbb", "ccccccccc"]

/-- Witness for C8 on the fixture: the loop finishes within the bound and
discovers only universe members. -/
theorem closure_worklist_terminates_witness :
    closureLoop wOracle (wTips.length + wUniv.length) (initSt wTips) wTips ≠
      CRes.out ∧
    (∀ k ∈ wSt.children.keys, k ∈ wUniv) := by
  have hS : ∀ a b c, a ∈ wUniv → b ∈ wUniv → wOracle a b = some c →
      c ∈ wUniv := by
    intro a b c ha _ hab
    unfold wOracle at hab
    by_cases h1 : a = b
    · rw [if_pos h1] at hab
      cases hab
      exact ha
    · rw [if_neg h1] at hab
      by_cases h2 : a = "bbbbbbbbb" ∧ b = "aaaaaaaaa"
      · rw [if_pos h2] at hab
        cases hab
        decide
      · rw [if_neg h2] at hab
        by_cases h3 : a = "ccccccccc"
        · rw [if_pos h3] at hab
          cases hab
          decide
        · rw [if_neg h3] at hab
          cases hab
  have h := closure_worklist_terminates wOracle wTips wUniv (by decide) hS
  exact ⟨h.1, fun k hk => h.2 wSt rfl k hk⟩

/-- C7: on every graph produced by closure construction, the reduction
phase (descendant-side pruning from the root followed by ancestor-side
pruning from the sorted leaves) is idempotent — a second reduction of the
reduced graph succeeds (for sufficient model fuel) and returns exactly the
same two adjacency maps, and any successful second reduction returns
them. -/
theorem reduction_idempotent (oracle : Commit → Commit → Option Commit)
    (fuel : Nat) (tips : List Commit) (st : BSt) (f : Nat) (c' p' : GMap)
    (hclo : closureLoop oracle fuel (initSt tips) tips = .done st)
    (hred : reduceGraph f st.children st.parents = some (c', p')) :
    (∀ f2 r, reduceGraph f2 c' p' = some r → r = (c', p')) ∧
    (∃ f2, reduceGraph f2 c' p' = some (c', p')) := by
  obtain ⟨hInv, hkeq, hpair, -⟩ := closure_facts oracle fuel tips st hclo
  obtain ⟨hOff, hSym, hNS, hCl⟩ := hInv
  simp only [reduceGraph] at hred
  rcases hfr : findRoot st.parents with _ | root
  · rw [hfr] at hred; cases hred
  rw [hfr] at hred
  dsimp only at hred
  rcases hpc : pruneWork f st.children [root] with _ | c0
  · rw [hpc] at hred; cases hred
  rw [hpc] at hred
  dsimp only at hred
  rcases hpp : pruneWork f st.parents (sortLeaves st.parents (leavesOf c0))
    with _ | p0
  · rw [hpp] at hred; cases hred
  rw [hpp] at hred
  simp only [Option.some.injEq, Prod.mk.injEq] at hred
  obtain ⟨rfl, rfl⟩ := hred
  -- facts about the root
  obtain ⟨hrootP, hrootE⟩ := findRoot_some st.parents root hfr
  have hrootC : root ∈ st.children.keys := (hkeq root).2 hrootP
  have hall : ∀ v ∈ st.children.keys, v ≠ root → v ∈ st.children.find root := by
    intro v hv hne
    rcases hpair root v hrootC hv (fun hc => hne hc.symm) with h1 | h1
    · exact absurd hrootE h1
    · exact h1
  -- the children pruning run and its suffix
  obtain ⟨f1, rfl⟩ : ∃ f1, f = f1 + 1 := by
    cases f with
    | zero => rw [pruneWork_zero_cons] at hpc; cases hpc
    | succ f1 => exact ⟨f1, rfl⟩
  have hsuffix : pruneWork f1
      (st.children.insert root
        ((st.children.find root).filter (keep st.children (st.children.find root))))
      (st.children.find root ++ []) = some c0 := by
    rw [← pruneWork_cons]
    exact hpc
  have hNSm1 : NoSelf (st.children.insert root
      ((st.children.find root).filter (keep st.children (st.children.find root)))) :=
    step_noSelf st.children root hNS.1
  -- facts about the reduced descendant map
  obtain ⟨hkc, hClc⟩ := pruneWork_keys_fixed (f1 + 1) st.children [root] c0
    hCl.1 (fun l hl => (List.mem_singleton.1 hl) ▸ hrootC) hpc
  have hNSc : NoSelf c0 := pruneWork_noSelf (f1 + 1) st.children [root] c0 hNS.1 hpc
  have hDoneAll : ∀ q ∈ st.children.keys, Done c0 q := by
    intro q hq
    by_cases hqr : q = root
    · rw [hqr]
      exact pruneWork_done_of_mem (f1 + 1) st.children [root] c0 hNS.1 hpc root
        (List.mem_singleton.2 rfl)
    · exact pruneWork_done_of_mem f1 _ _ c0 hNSm1 hsuffix q
        (List.mem_append.2 (Or.inl (hall q hq hqr)))
  -- facts about the reduced ancestor map
  have hClp : Closed st.parents := by
    intro k x hx
    exact (hkeq x).1 (hCl.2 k x hx)
  have hwsP : ∀ l ∈ sortLeaves st.parents (leavesOf c0), l ∈ st.parents.keys := by
    intro l hl
    rw [mem_sortLeaves] at hl
    unfold leavesOf at hl
    have := (List.mem_filter.1 hl).1
    rw [hkc] at this
    exact (hkeq l).1 this
  obtain ⟨hkp, hClp'⟩ := pruneWork_keys_fixed (f1 + 1) st.parents
    (sortLeaves st.parents (leavesOf c0)) p0 hClp hwsP hpp
  have hNSp : NoSelf p0 :=
    pruneWork_noSelf (f1 + 1) st.parents _ p0 hNS.2 hpp
  have hrootE' : p0.find root = [] := by
    have := pruneWork_find_sub (f1 + 1) st.parents _ p0 hpp root
    rw [hrootE] at this
    exact List.sublist_nil.1 this
  -- the second root
  obtain ⟨root2, hfr2⟩ := findRoot_mem_some p0 root (by rw [hkp]; exact hrootP)
    hrootE'
  obtain ⟨hroot2P, -⟩ := findRoot_some p0 root2 hfr2
  have hroot2C : root2 ∈ st.children.keys := by
    rw [hkp] at hroot2P
    exact (hkeq root2).2 hroot2P
  -- a second children pruning run succeeds and is the identity
  have hC2 : ∃ fc, pruneWork fc c0 [root2] = some c0 := by
    by_cases hr2 : root2 = root
    · subst hr2
      exact ⟨f1 + 1, pruneWork_again (f1 + 1) st.children [root2] c0 hNS.1 hpc
        [root2] (List.Sublist.refl _)⟩
    · refine ⟨f1, pruneWork_again f1 _ _ c0 hNSm1 hsuffix [root2] ?_⟩
      rw [List.singleton_sublist]
      exact List.mem_append.2 (Or.inl (hall root2 hroot2C hr2))
  -- a second parents pruning run succeeds and is the identity
  have hP2 : ∃ fp, pruneWork fp p0 (sortLeaves p0 (leavesOf c0)) = some p0 := by
    refine pruneWork_exists_of_singles _ p0 ?_
    intro l hl
    rw [mem_sortLeaves] at hl
    refine ⟨f1 + 1, pruneWork_again (f1 + 1) st.parents _ p0 hNS.2 hpp [l] ?_⟩
    rw [List.singleton_sublist, mem_sortLeaves]
    exact hl
  obtain ⟨fc, hfc⟩ := hC2
  obtain ⟨fp, hfp⟩ := hP2
  have hexists : reduceGraph (fc + fp) c0 p0 = some (c0, p0) := by
    simp only [reduceGraph]
    rw [hfr2]
    dsimp only
    rw [pruneWork_fuel_mono fc (fc + fp) c0 [root2] c0 (Nat.le_add_right fc fp) hfc]
    dsimp only
    rw [pruneWork_fuel_mono fp (fc + fp) p0 _ p0 (Nat.le_add_left fp fc) hfp]
  refine ⟨?_, ⟨fc + fp, hexists⟩⟩
  intro f2 r hred2
  simp only [reduceGraph] at hred2
  rw [hfr2] at hred2
  dsimp only at hred2
  rcases hpc2 : pruneWork f2 c0 [root2] with _ | c2
  · rw [hpc2] at hred2; cases hred2
  rw [hpc2] at hred2
  dsimp only at hred2
  have hc2 : c2 = c0 := pruneWork_det f2 fc c0 [root2] c2 c0 hpc2 hfc
  subst hc2
  rcases hpp2 : pruneWork f2 p0 (sortLeaves p0 (leavesOf c2)) with _ | p2
  · rw [hpp2] at hred2; cases hred2
  rw [hpp2] at hred2
  have hp2 : p2 = p0 := pruneWork_det f2 fp p0 _ p2 p0 hpp2 hfp
  subst hp2
  simp only [Option.some.injEq] at hred2
  exact hred2.symm

/-- The reduced fixture graph (extracted from the computation). -/
def wRed : GMap × GMap :=
  match reduceGraph 9 wSt.children wSt.parents with
  | some g => g
  | none => (GMap.empty, GMap.empty)

/-- The result of reducing the already-reduced fixture graph again. -/
def wRed2 : GMap × GMap :=
  match reduceGraph 20 wRed.1 wRed.2 with
  | some g => g
  | none => (GMap.empty, GMap.empty)

/-- Witness for C7 on the fixture: the second reduction reproduces the
first one's maps exactly. -/
theorem reduction_idempotent_witness : wRed2 = (wRed.1, wRed.2) :=
  (reduction_idempotent wOracle 9 wTips wSt 9 wRed.1 wRed.2 rfl rfl).1
    20 wRed2 rfl

/-! ## The label function (C10) -/

theorem utf8Len_append (a b : List Char) :
    utf8Len (a ++ b) = utf8Len a + utf8Len b := by
  unfold utf8Len
  rw [List.map_append, List.sum_append]

theorem takeBytes_spec : ∀ (n : Nat) (l pre : List Char),
    takeBytes n l = some pre → ∃ suf, l = pre ++ suf ∧ utf8Len pre = n := by
  intro n
  induction n using Nat.strong_induction_on with
  | _ n ih =>
    intro l pre h
    cases n with
    | zero =>
      unfold takeBytes at h
      cases h
      exact ⟨l, rfl, rfl⟩
    | succ m =>
      cases l with
      | nil => cases h
      | cons c cs =>
        unfold takeBytes at h
        by_cases hle : c.utf8Size ≤ m + 1
        · rw [if_pos hle] at h
          rcases ht : takeBytes (m + 1 - c.utf8Size) cs with _ | pre'
          · rw [ht] at h; cases h
          · rw [ht] at h
            simp only [Option.map_some', Option.some.injEq] at h
            subst h
            have hlt : m + 1 - c.utf8Size < m + 1 := by
              have := Char.utf8Size_pos c
              omega
            obtain ⟨suf, hsuf, hlen⟩ := ih _ hlt cs pre' ht
            refine ⟨suf, by rw [hsuf, List.cons_append], ?_⟩
            show utf8Len (c :: pre') = m + 1
            unfold utf8Len
            rw [List.map_cons, List.sum_cons]
            unfold utf8Len at hlen
            omega
        · rw [if_neg hle] at h
          cases h

theorem takeBytes_of_split : ∀ (pre suf : List Char),
    takeBytes (utf8Len pre) (pre ++ suf) = some pre := by
  intro pre
  induction pre with
  | nil =>
    intro suf
    have h0 : utf8Len ([] : List Char) = 0 := by
      unfold utf8Len
      rw [List.map_nil]
      rfl
    rw [h0, List.nil_append]
    cases suf <;> rfl
  | cons c cs ih =>
    intro suf
    have hsz := Char.utf8Size_pos c
    have hn : utf8Len (c :: cs) = c.utf8Size + utf8Len cs := by
      unfold utf8Len
      rw [List.map_cons, List.sum_cons]
    obtain ⟨m, hm⟩ : ∃ m, utf8Len (c :: cs) = m + 1 :=
      ⟨utf8Len (c :: cs) - 1, by omega⟩
    rw [hm]
    show takeBytes (m + 1) (c :: (cs ++ suf)) = some (c :: cs)
    unfold takeBytes
    rw [if_pos (by omega), show m + 1 - c.utf8Size = utf8Len cs from by omega,
      ih suf]
    rfl

/-- C10 counterexample: `ÀÀÀÀÀ` is 10 bytes long (at least 9), yet the
label function panics on it — byte offset 9 splits the final two-byte
character — refuting totality of the label for all identifiers of at least
9 bytes. -/
theorem name_label_ten_bytes_panics :
    utf8Len (("ÀÀÀÀÀ" : String).data) = 10 ∧
    9 ≤ utf8Len (("ÀÀÀÀÀ" : String).data) ∧
    nameLabel [] "ÀÀÀÀÀ" = none := by
  refine ⟨by decide, by decide, ?_⟩
  unfold nameLabel
  rw [show takeBytes 9 ("ÀÀÀÀÀ" : String).data = none from by decide]

/-- C10 (amended): the label function succeeds exactly on identifiers whose
UTF-8 bytes split after whole characters at offset 9 — so it panics for
every identifier shorter than 9 bytes, and also for longer ones whose byte
offset 9 falls inside a character; on success it renders the identifier's
first 9 **bytes** (with the branch names appended when present). -/
theorem name_label_spec (idB : List (Commit × List String)) (c : Commit) :
    ((nameLabel idB c).isSome ↔
      ∃ pre suf, c.data = pre ++ suf ∧ utf8Len pre = 9) ∧
    (utf8Len c.data < 9 → nameLabel idB c = none) ∧
    (∀ pre, takeBytes 9 c.data = some pre →
      (∃ suf, c.data = pre ++ suf ∧ utf8Len pre = 9) ∧
      nameLabel idB c =
        some (match branchLookup idB c with
          | none => String.mk pre
          | some names =>
            String.mk pre ++ " " ++ String.intercalate ", " names)) := by
  refine ⟨?_, ?_, ?_⟩
  · constructor
    · intro h
      unfold nameLabel at h
      rcases ht : takeBytes 9 c.data with _ | pre
      · rw [ht] at h; cases h
      · obtain ⟨suf, hsuf, hlen⟩ := takeBytes_spec 9 c.data pre ht
        exact ⟨pre, suf, hsuf, hlen⟩
    · rintro ⟨pre, suf, hsplit, hlen⟩
      unfold nameLabel
      rw [show takeBytes 9 c.data = some pre from by
        rw [hsplit, ← hlen]; exact takeBytes_of_split pre suf]
      rcases branchLookup idB c with _ | names <;> rfl
  · intro hlt
    unfold nameLabel
    rcases ht : takeBytes 9 c.data with _ | pre
    · rfl
    · obtain ⟨suf, hsuf, hlen⟩ := takeBytes_spec 9 c.data pre ht
      rw [hsuf, utf8Len_append, hlen] at hlt
      omega
  · intro pre ht
    obtain ⟨suf, hsuf, hlen⟩ := takeBytes_spec 9 c.data pre ht
    refine ⟨⟨suf, hsuf, hlen⟩, ?_⟩
    unfold nameLabel
    rw [ht]
    dsimp only
    cases branchLookup idB c <;> rfl

/-- Witness for the amended C10: a 10-byte ASCII id gets the 9-byte label,
an 8-byte id panics. -/
theorem name_label_spec_witness :
    (nameLabel [] "abcdefghij").isSome ∧ nameLabel [] "abcdefgh" = none :=
  ⟨(name_label_spec [] "abcdefghij").1.2
      ⟨("abcdefghi" : String).data, ['j'], by decide, by decide⟩,
   (name_label_spec [] "abcdefgh").2.1 (by decide)⟩

/-! ## Degenerate inputs (C1) -/

theorem chLt_irrefl : ∀ l, chLt l l = false := by
  intro l
  induction l with
  | nil => rfl
  | cons c cs ih =>
    unfold chLt
    rw [if_neg (Nat.lt_irrefl c.toNat), if_neg (Nat.lt_irrefl c.toNat)]
    exact ih

theorem canonPair_self (n : Commit) : canonPair n n = (n, n) := by
  unfold canonPair
  rw [show commitLt n n = false from chLt_irrefl n.data]
  rfl

theorem closureLoop_nil (oracle : Commit → Commit → Option Commit) (f : Nat)
    (st : BSt) : closureLoop oracle f st [] = .done st := by
  cases f <;> rfl

theorem closureLoop_cons (oracle : Commit → Commit → Option Commit) (f : Nat)
    (st : BSt) (n : Commit) (rest : List Commit) :
    closureLoop oracle (f + 1) st (n :: rest) =
      match innerLoop oracle n st.children.keys st rest with
      | none => .fail
      | some (st', work') => closureLoop oracle f st' work' := rfl

/-- Querying the self pair `(n, n)` on a fresh memo records the oracle's
reflexive answer and changes nothing else. -/
theorem innerStep_self (oracle : Commit → Commit → Option Commit) (n : Commit)
    (st : BSt) (work : List Commit) (hm : st.memo = [])
    (ho : oracle n n = some n) (hk : n ∈ st.children.keys)
    (hp : n ∈ st.parents.keys) :
    innerStep oracle n n st work =
      some ({ st with memo := ((n, n), n) :: st.memo,
                      trace := st.trace ++ [(n, n)] }, work) := by
  have hmb : mergeBase oracle st n n =
      some (n, { st with memo := ((n, n), n) :: st.memo,
                         trace := st.trace ++ [(n, n)] }) := by
    unfold mergeBase
    rw [canonPair_self, hm]
    dsimp only
    rw [show memoLookup ([] : List ((Commit × Commit) × Commit)) (n, n) = none
      from rfl]
    dsimp only
    rw [ho]
  unfold innerStep
  rw [hmb]
  dsimp only
  have hreg : registerBase st.children work n = (st.children, work) := by
    unfold registerBase
    rw [if_pos (by unfold GMap.contains; exact decide_eq_true hk)]
  rw [hreg]
  have hce : addChildEdges st.children n n n = st.children := by
    unfold addChildEdges
    rw [if_pos rfl, if_pos rfl]
  have hpe : addParentEdges st.parents n n n = st.parents := by
    unfold addParentEdges
    rw [if_pos rfl, if_pos rfl]
    unfold ensureKey
    rw [if_pos hp, if_pos hp]
  rw [hce, hpe]

theorem initMaps_single_keys (n : Commit) : (initMaps [n]).keys = [n] := by
  show (GMap.empty.insert n []).keys = [n]
  rw [GMap.keys_insert, show GMap.empty.keys = ([] : List Commit) from rfl,
    if_neg (List.not_mem_nil n)]
  rfl

/-- A single tip: the worklist drains after one iteration consisting of the
single reflexive oracle query, producing the one-node graph with no
edges. -/
theorem closure_single (oracle : Commit → Commit → Option Commit) (n : Commit)
    (f : Nat) (ho : oracle n n = some n) :
    closureLoop oracle (f + 1) (initSt [n]) [n] =
      .done ⟨initMaps [n], initMaps [n], [((n, n), n)], [(n, n)]⟩ := by
  rw [closureLoop_cons]
  have hk : n ∈ (initSt [n]).children.keys := by
    show n ∈ (initMaps [n]).keys
    rw [initMaps_single_keys]
    exact List.mem_singleton.2 rfl
  have hkeys : (initSt [n]).children.keys = [n] := initMaps_single_keys n
  rw [hkeys]
  show (match innerLoop oracle n [n] (initSt [n]) [] with
    | none => CRes.fail
    | some (st', work') => closureLoop oracle f st' work') = _
  unfold innerLoop
  rw [innerStep_self oracle n (initSt [n]) [] rfl ho hk hk]
  dsimp only
  show (match (innerLoop oracle n [] _ []) with
    | none => CRes.fail
    | some (st', work') => closureLoop oracle f st' work') = _
  unfold innerLoop
  dsimp only
  rw [closureLoop_nil]
  rfl

/-- Reducing the one-node graph changes nothing. -/
theorem reduce_single (f : Nat) (n : Commit) :
    reduceGraph (f + 1) (initMaps [n]) (initMaps [n]) =
      some (initMaps [n], initMaps [n]) := by
  have hmem : n ∈ (initMaps [n]).keys := by
    rw [initMaps_single_keys]
    exact List.mem_singleton.2 rfl
  have hfr : findRoot (initMaps [n]) = some n := by
    unfold findRoot
    rw [initMaps_single_keys]
    rw [List.find?_cons_of_pos]
    rw [initMaps_find]
    rfl
  have hins : (initMaps [n]).insert n [] = initMaps [n] := by
    have h := GMap.insert_self (initMaps [n]) n hmem
    rw [initMaps_find] at h
    exact h
  have hpw : pruneWork (f + 1) (initMaps [n]) [n] = some (initMaps [n]) := by
    rw [pruneWork_cons, initMaps_find]
    rw [show ([] : List Commit).filter (keep (initMaps [n]) []) = [] from rfl]
    rw [hins]
    exact pruneWork_nil f (initMaps [n])
  have hlv : leavesOf (initMaps [n]) = [n] := by
    unfold leavesOf
    rw [initMaps_single_keys]
    rw [List.filter_cons_of_pos]
    · rfl
    · rw [initMaps_find]
      rfl
  have hsort : sortLeaves (initMaps [n]) [n] = [n] := rfl
  simp only [reduceGraph]
  rw [hfr]
  dsimp only
  rw [hpw]
  dsimp only
  rw [hlv, hsort, hpw]

/-- A run with no tips at all fails to find a root and reports the error,
printing nothing. -/
theorem run_zero_tips (oracle : Commit → Commit → Option Commit) (fuel : Nat) :
    runModel oracle ([] : List (Commit × List String)) fuel =
      ⟨[], .err .noRoot⟩ := by
  simp only [runModel]
  rw [show (([] : List (Commit × List String)).map Prod.fst) = [] from rfl]
  rw [closureLoop_nil]
  dsimp only
  rw [show reduceGraph fuel (initSt []).children (initSt []).parents = none from by
    simp only [reduceGraph]
    rw [show findRoot (initSt []).parents = none from rfl]]
  dsimp only
  rw [show findRoot (initSt []).parents = none from rfl]

/-- A run with a single tip (whose label fits) renders the one-node graph
with no edge lines. -/
theorem run_single_tip (oracle : Commit → Commit → Option Commit) (n : Commit)
    (bs : List String) (f : Nat) (lbl : String) (ho : oracle n n = some n)
    (hl : nameLabel [(n, bs)] n = some lbl) :
    runModel oracle [(n, bs)] (f + 1) =
      ⟨["digraph \x7b", "\t0 [label=\"" ++ lbl ++ "\"]", "\x7d"], .ok⟩ := by
  simp only [runModel]
  rw [show ([(n, bs)].map Prod.fst) = [n] from rfl]
  rw [closure_single oracle n f ho]
  dsimp only
  rw [reduce_single f n]
  dsimp only
  unfold printGraph
  rw [initMaps_single_keys]
  have hnl : nodeLines [(n, bs)] [n] 0 =
      (["\t" ++ toString 0 ++ " [label=\"" ++ lbl ++ "\"]"], true) := by
    unfold nodeLines
    rw [hl]
    rfl
  rw [hnl]
  dsimp only
  have hel : edgeLines [n] (initMaps [n]) [n] 0 = ([], true) := by
    unfold edgeLines
    rw [initMaps_find]
    rfl
  rw [hel]
  rfl

/-- C1 counterexample: on zero initial nodes the engine does NOT return an
empty graph without error — the run aborts with the no-root error. -/
theorem trivial_inputs_counterexample :
    (runModel (fun _ _ => none) ([] : List (Commit × List String)) 5).outcome =
      Outcome.err RunErr.noRoot ∧
    (runModel (fun _ _ => none) ([] : List (Commit × List String)) 5).outcome ≠
      Outcome.ok := by
  rw [run_zero_tips]
  exact ⟨rfl, fun h => Outcome.noConfusion h⟩

/-- C1 (amended): with a single initial node the worklist drains after one
iteration (a single reflexive oracle query) and the engine produces the
trivial one-node graph with no edges and exits cleanly (given a renderable
label); with zero initial nodes the closure is empty and the engine then
fails with the no-root error before printing anything — the zero-node case
IS treated as an engine error. -/
theorem trivial_inputs_behavior :
    (∀ (oracle : Commit → Commit → Option Commit) fuel,
      runModel oracle ([] : List (Commit × List String)) fuel =
        ⟨[], .err .noRoot⟩) ∧
    (∀ (oracle : Commit → Commit → Option Commit) n bs f lbl,
      oracle n n = some n → nameLabel [(n, bs)] n = some lbl →
      closureLoop oracle (f + 1) (initSt [n]) [n] =
        .done ⟨initMaps [n], initMaps [n], [((n, n), n)], [(n, n)]⟩ ∧
      (initMaps [n]).keys = [n] ∧ (∀ k, (initMaps [n]).find k = []) ∧
      runModel oracle [(n, bs)] (f + 1) =
        ⟨["digraph \x7b", "\t0 [label=\"" ++ lbl ++ "\"]", "\x7d"], .ok⟩) :=
  ⟨run_zero_tips, fun oracle n bs f lbl ho hl =>
    ⟨closure_single oracle n f ho, initMaps_single_keys n,
     fun k => initMaps_find [n] k,
     run_single_tip oracle n bs f lbl ho hl⟩⟩

/-- Witness for the amended C1 at a concrete single tip and the concrete
zero-tip run. -/
theorem trivial_inputs_behavior_witness :
    runModel wOracle [("aaaaaaaaa", ["main"])] 4 =
      ⟨["digraph \x7b", "\t0 [label=\"" ++ "aaaaaaaaa main" ++ "\"]", "\x7d"],
        .ok⟩ ∧
    runModel wOracle ([] : List (Commit × List String)) 7 =
      ⟨[], .err .noRoot⟩ :=
  ⟨(trivial_inputs_behavior.2 wOracle "aaaaaaaaa" ["main"] 3 "aaaaaaaaa main"
      (by decide) (by decide)).2.2.2,
   trivial_inputs_behavior.1 wOracle 7⟩
